import Mathlib

/-!
A shallow embedding of the skateboard-sale scraper (src/scraper.py).

It models the product record shape, the four per-source `parse`
extractors (`ZumiezScraper`, `SkateWarehouseScraper`, `CCSScraper`,
`TacticsScraper`), the snapshot accumulation loop of `main`, and the
diff engine `compare`.

Modelling conventions:
* Python machine floats are modelled as exact rationals (`ℚ`); IEEE
  `inf`/`nan` literals and overflow corner cases are outside the model.
* An HTML document is modelled by what each source's selectors extract
  from it: a list of candidate elements per source (`Html` below).
* `BeautifulSoup` text extraction (`get_text(strip=True)`, attribute
  access) is modelled by the string fields of the candidate structures.
* A falsy `html` argument (Python `None` or the empty page) is modelled
  as `Option.none`.
-/

namespace Scraper

/-- ASCII whitespace recognised by Python's `str.strip()` and by
`float()`'s surrounding-whitespace tolerance. -/
def pyWs (c : Char) : Bool :=
  c == ' ' || c == '\t' || c == '\n' || c == '\r' || c == '\x0b' || c == '\x0c'

/-- Drop elements satisfying `p` from the end of a list. -/
def dropTrailing (p : Char → Bool) (l : List Char) : List Char :=
  (l.reverse.dropWhile p).reverse

/-- Python `str.strip()` on a character list: remove leading and trailing
whitespace. -/
def pyStripList (l : List Char) : List Char :=
  dropTrailing pyWs (l.dropWhile pyWs)

/-- Python `str.strip()`. -/
def pyStrip (s : String) : String :=
  String.mk (pyStripList s.toList)

/-- Python `str.lower()` (ASCII case folding; the sources' selector and
brand tokens are all ASCII). -/
def pyLower (s : String) : String :=
  String.mk (s.toList.map Char.toLower)

/-- Boolean containment of one character list in another (Python's
`needle in haystack` on strings). -/
def listContains (needle : List Char) : List Char → Bool
  | [] => needle.isEmpty
  | c :: rest => needle.isPrefixOf (c :: rest) || listContains needle rest

/-- Python's substring test `needle in hay`. -/
def hasSub (needle hay : String) : Bool :=
  listContains needle.toList hay.toList

/-- Python `s.replace("$", "")`: remove every dollar sign. -/
def stripDollars (s : String) : String :=
  String.mk (s.toList.filter (fun c => c != '$'))

/-- Python `href.startswith("/")` relative-link absolutisation used by
every scraper: prepend the source's base origin. -/
def absolutize (base href : String) : String :=
  match href.toList with
  | '/' :: _ => base ++ href
  | _ => href

/-- Value of a decimal digit string (most significant digit first). -/
def digitsToNat (ds : List Char) : Nat :=
  ds.foldl (fun n c => n * 10 + (c.toNat - 48)) 0

/-- Negate a rational on its fraction representation.  (The `Rat` field
operations are `@[irreducible]` in this toolchain and would block kernel
evaluation of concrete runs, so the numeric path below sticks to `mkRat`
and integer arithmetic; the values are the usual field values.) -/
def qNeg (q : ℚ) : ℚ := mkRat (-q.num) q.den

/-- Negate when the parsed sign was `-`. -/
def applyNeg (b : Bool) (q : ℚ) : ℚ := if b then qNeg q else q

/-- `q * 10 ^ e` (or `q / 10 ^ e` when `negExp`), on the fraction
representation. -/
def scalePow10 (q : ℚ) (negExp : Bool) (e : Nat) : ℚ :=
  if negExp then mkRat q.num (q.den * 10 ^ e) else mkRat (q.num * 10 ^ e) q.den

/-- Parse the unsigned mantissa of a Python float literal:
`digits [. digits]` or `. digits`.  Returns the value and the unconsumed
remainder; `ip.fp` is the fraction `(ip·10^|fp| + fp) / 10^|fp|`. -/
def parseUnsigned (l : List Char) : Option (ℚ × List Char) :=
  let ip := l.takeWhile Char.isDigit
  let r := l.drop ip.length
  match r with
  | [] => if ip.isEmpty then none else some ((digitsToNat ip : ℚ), [])
  | c :: r2 =>
    if c = '.' then
      let fp := r2.takeWhile Char.isDigit
      let r3 := r2.drop fp.length
      if ip.isEmpty && fp.isEmpty then none
      else
        some (mkRat (digitsToNat ip * 10 ^ fp.length + digitsToNat fp) (10 ^ fp.length),
          r3)
    else if ip.isEmpty then none else some ((digitsToNat ip : ℚ), c :: r2)

/-- Split a leading `+`/`-` sign off a numeric literal (`true` = negative). -/
def pySign : List Char → Bool × List Char
  | [] => (false, [])
  | c :: r => if c = '+' then (false, r) else if c = '-' then (true, r) else (false, c :: r)

/-- Split a leading `+`/`-` sign off an exponent (`true` = negative). -/
def pyExpSign : List Char → Bool × List Char
  | [] => (false, [])
  | c :: r => if c = '+' then (false, r) else if c = '-' then (true, r) else (false, c :: r)

/-- Parse the exponent tail of a Python float literal (the part after
`e`/`E`). -/
def parseExpTail (sgn : Bool) (m : ℚ) (l : List Char) : Option ℚ :=
  let esgn := pyExpSign l
  let ds := esgn.2.takeWhile Char.isDigit
  if ds.isEmpty then none
  else if (esgn.2.drop ds.length).isEmpty then
    some (applyNeg sgn (scalePow10 m esgn.1 (digitsToNat ds)))
  else none

/-- Handle what follows the mantissa of a Python float literal: nothing,
or an `e`/`E` exponent. -/
def pyAfterMantissa (sgn : Bool) (m : ℚ) : List Char → Option ℚ
  | [] => some (applyNeg sgn m)
  | c :: r2 => if c = 'e' ∨ c = 'E' then parseExpTail sgn m r2 else none

/-- Parse a stripped Python float literal: optional sign, mantissa,
optional exponent. -/
def pyFloatCore (l : List Char) : Option ℚ :=
  let s := pySign l
  match parseUnsigned s.2 with
  | none => none
  | some (m, r) => pyAfterMantissa s.1 m r

/-- Python `float(s)` as an exact rational: `none` models a raised
`ValueError`.  Underscore separators and the `inf`/`nan` literal forms
accepted by CPython are not modelled. -/
def pyFloat (s : String) : Option ℚ :=
  pyFloatCore (pyStripList s.toList)

/-- Round-half-to-even (the rounding used by Python's `format(x, ".0f")`
and `round`), computed on the fraction representation: with `f = ⌊q⌋` and
fractional-part numerator `r = q.num - f·q.den ∈ [0, q.den)`, the
fractional part is below / above / at one half according as `2r` compares
with `q.den`. -/
def roundHalfEven (q : ℚ) : ℤ :=
  let f := q.num.fdiv q.den
  let r := q.num - f * q.den
  if 2 * r < (q.den : ℤ) then f
  else if (q.den : ℤ) < 2 * r then f + 1
  else if 2 ∣ f then f else f + 1

/-- `(o - n) / o * 100` (the percent-off formula of
`calculate_percent_off`, src/scraper.py:239) computed on the fraction
representation: see `pctOf_eq` for equality with the field expression
when `0 < o`. -/
def pctOf (n o : ℚ) : ℚ :=
  mkRat ((o.num * n.den - n.num * o.den) * 100) (o.num.natAbs * n.den)

/-- `calculate_percent_off` (src/scraper.py:239).  The source formats the
percentage as the string `f"{p:.0f}%"` and returns `"N/A"` when either
price fails `float()` conversion or the old price is not positive; callers
immediately re-parse the string with `float(percent_off.strip("%"))`,
which succeeds exactly on the formatted-number case and yields the rounded
integer.  The model therefore returns that rounded integer directly, with
`none` standing for `"N/A"`. -/
def calculate_percent_off (price_new : String) (price_old : Option String) :
    Option ℤ :=
  match price_old with
  | none => none
  | some po =>
    match pyFloat price_new, pyFloat po with
    | some n, some o =>
      if o ≤ 0 then none
      else some (roundHalfEven (pctOf n o))
    | _, _ => none

/-- The deck-discount gate shared by all four scrapers: keep the candidate
exactly when the percent-off string parses back and is not below 10. -/
def deckKeep (price_new : String) (price_old : Option String) : Bool :=
  match calculate_percent_off price_new price_old with
  | none => false
  | some v => !(v < 10)

/-- One emitted product record (the dict literal appended to `products`
by every `parse`). -/
structure Item where
  name : String
  url : String
  price_new : String
  price_old : Option String
  availability : String
  part : String
  store : String
deriving DecidableEq, Repr

/-- The wheels brand allow-list shared by all four scrapers. -/
def wheelBrands : List String := ["Bones", "Powell", "Spitfire", "OJ"]

/-- Wheels brand filter: some allow-listed token occurs in the name. -/
def wheelBrandOk (name : String) : Bool :=
  wheelBrands.any (fun b => hasSub b name)

/-- The trucks brand allow-list of `SkateWarehouseScraper.parse` (the only
variant that brand-filters trucks). -/
def swTruckBrands : List String := ["Independent", "Indy", "Ace"]

/-- SkateWarehouse trucks brand filter. -/
def swTruckBrandOk (name : String) : Bool :=
  swTruckBrands.any (fun b => hasSub b name)

/-- Match the capture `(\d+\.?\d*)` at the head of the input: a maximal
digit run, optionally a dot followed by a further maximal digit run.
Returns the captured text and the remainder. -/
def grabNum (l : List Char) : Option (String × List Char) :=
  let d1 := l.takeWhile Char.isDigit
  let r1 := l.drop d1.length
  if d1.isEmpty then none
  else
    match r1 with
    | [] => some (String.mk d1, [])
    | c :: r2 =>
      if c = '.' then
        let d2 := r2.takeWhile Char.isDigit
        some (String.mk (d1 ++ '.' :: d2), r2.drop d2.length)
      else some (String.mk d1, c :: r2)

/-- Fuel-based scanner for `re.findall(r"\\$(\\d+\\.?\\d*)", text)`: every
dollar-prefixed number, scanned left to right without overlap (used by
the CCS price fallback and by `TacticsScraper.parse`).  One unit of fuel
is spent per scan position; the wrapper supplies the input length, which
is always sufficient because the position strictly advances, so the
fuel-exhausted branch is unreachable.  (Structural fuel recursion keeps
the function kernel-computable.) -/
def findNumsDF : Nat → List Char → List String
  | 0, _ => []
  | _ + 1, [] => []
  | fuel + 1, c :: rest =>
    if c = '$' then
      match grabNum rest with
      | some (p, rem) => p :: findNumsDF fuel rem
      | none => findNumsDF fuel rest
    else findNumsDF fuel rest

/-- `re.findall(r"\\$(\\d+\\.?\\d*)", text)`. -/
def findNumsD (l : List Char) : List String := findNumsDF l.length l

/-- Fuel-based scanner for `re.findall(r"\\$?(\\d+\\.?\\d*)", text)`: like
`findNumsDF` but the dollar sign is optional (used for the dedicated CCS
price sub-elements). -/
def findNumsOptF : Nat → List Char → List String
  | 0, _ => []
  | _ + 1, [] => []
  | fuel + 1, c :: rest =>
    if c = '$' then
      match grabNum rest with
      | some (p, rem) => p :: findNumsOptF fuel rem
      | none => findNumsOptF fuel rest
    else
      match grabNum (c :: rest) with
      | some (p, rem) => p :: findNumsOptF fuel rem
      | none => findNumsOptF fuel rest

/-- `re.findall(r"\\$?(\\d+\\.?\\d*)", text)`. -/
def findNumsOpt (l : List Char) : List String := findNumsOptF l.length l

/-- Match the capture `(\\d+\\.\\d{2})` at the head of the input: a maximal
digit run, a dot, then exactly two digits.  Returns the captured text and
the remainder. -/
def matchPrice (l : List Char) : Option (String × List Char) :=
  let d1 := l.takeWhile Char.isDigit
  let r1 := l.drop d1.length
  if d1.isEmpty then none
  else
    match r1 with
    | c0 :: c1 :: c2 :: rest =>
      if c0 = '.' ∧ c1.isDigit ∧ c2.isDigit then
        some (String.mk (d1 ++ '.' :: c1 :: [c2]), rest)
      else none
    | _ => none

/-- Fuel-based scanner for `re.findall(r"\\$(\\d+\\.\\d{2})", text)` from
`SkateWarehouseScraper.parse`. -/
def findPricesF : Nat → List Char → List String
  | 0, _ => []
  | _ + 1, [] => []
  | fuel + 1, c :: rest =>
    if c = '$' then
      match matchPrice rest with
      | some (p, rem) => p :: findPricesF fuel rem
      | none => findPricesF fuel rest
    else findPricesF fuel rest

/-- `re.findall(r"\\$(\\d+\\.\\d{2})", text)`. -/
def findPrices (l : List Char) : List String := findPricesF l.length l

/-- Fuel-based scanner for `re.search(r"(\\d+)%", text)` from the Tactics
promo-bug handler: the first maximal digit run that is immediately
followed by a percent sign, converted with `int()`. -/
def findPctF : Nat → List Char → Option Nat
  | 0, _ => none
  | _ + 1, [] => none
  | fuel + 1, c :: rest =>
    if c.isDigit then
      match (c :: rest).drop ((c :: rest).takeWhile Char.isDigit).length with
      | [] => none
      | c2 :: r2 =>
        if c2 = '%' then some (digitsToNat ((c :: rest).takeWhile Char.isDigit))
        else findPctF fuel (c2 :: r2)
    else findPctF fuel rest

/-- `re.search(r"(\\d+)%", text)`, as the captured integer. -/
def findPct (l : List Char) : Option Nat := findPctF l.length l

/-- Python `text.split(sep)[0]` for nonempty `sep`: the prefix of the text
before the first occurrence of the separator (the whole text when the
separator does not occur). -/
def splitBefore (sep : List Char) : List Char → List Char
  | [] => []
  | c :: rest =>
    if sep.isPrefixOf (c :: rest) then []
    else c :: splitBefore sep rest

/-- Python `str(round(x, 2))` as used by the Tactics promo-bug branch to
synthesise an original price: round half-to-even at two decimals and
render with the trailing zeros trimmed, keeping at least one fractional
digit.  (Real arithmetic stands in for IEEE doubles; the `-0.0` rendering
corner is not modelled.) -/
def pyRound2Str (q : ℚ) : String :=
  let r := roundHalfEven (mkRat (q.num * 100) q.den)
  let sgn := if r < 0 then "-" else ""
  let n := r.natAbs
  let whole := n / 100
  let frac := n % 100
  let fracStr :=
    if frac = 0 then "0"
    else if frac % 10 = 0 then Nat.repr (frac / 10)
    else if frac < 10 then "0" ++ Nat.repr frac
    else Nat.repr frac
  sgn ++ Nat.repr whole ++ "." ++ fracStr

/-! ## ZumiezScraper.parse (src/scraper.py:265) -/

/-- The `a.ProductCard-Link` anchor of one Zumiez product card: its
`href` attribute and, when an `img` with an `alt` attribute is nested
inside it, that alt text. -/
structure ZumiezLink where
  href : String
  imgAlt : Option String
deriving DecidableEq, Repr

/-- One `li.ProductCard` container, described by what the per-item
selectors extract from it (`none` = the sub-element is absent; text
fields carry the `get_text(strip=True)` result). -/
structure ZumiezCard where
  link : Option ZumiezLink
  nameText : Option String
  salePriceText : Option String
  originalPriceText : Option String
deriving DecidableEq, Repr

/-- A candidate Zumiez container.  `malformed` models a card whose very
first element access raises, exercising the per-item `except` clause. -/
inductive ZCand where
  | card (c : ZumiezCard)
  | malformed
deriving DecidableEq, Repr

/-- The Zumiez per-item pipeline after URL dedup: name resolution, the
wheels brand filter, price extraction, and the decks discount gate. -/
def zEmit (part href : String) (l : ZumiezLink) (c : ZumiezCard) : Option Item :=
  let name :=
    match c.nameText with
    | some t => t
    | none => match l.imgAlt with | some a => pyStrip a | none => ""
  if name = "" then none
  else if part == "Wheels" && !wheelBrandOk name then none
  else
    let sale_price := c.salePriceText.map stripDollars
    let original_price := c.originalPriceText.map stripDollars
    match sale_price with
    | none => none
    | some sp =>
      if sp = "" then none
      else if part == "Decks" && !deckKeep sp original_price then none
      else some ⟨name, href, sp, original_price, "Check store", part, "Zumiez"⟩

/-- One Zumiez loop iteration on a well-formed card: link lookup, URL
absolutisation, the `seen` dedup check (the source adds the URL to `seen`
before the remaining filters), then `zEmit`. -/
def zItem (part : String) (seen : List String) (c : ZumiezCard) :
    List String × Option Item :=
  match c.link with
  | none => (seen, none)
  | some l =>
    let href := absolutize "https://www.zumiez.com" l.href
    if href ∈ seen then (seen, none)
    else (seen ++ [href], zEmit part href l c)

/-- One Zumiez loop iteration including the per-item `try`/`except`:
a malformed card leaves the state untouched (logged and skipped). -/
def stepZ (part : String) (st : List String × List Item) (c : ZCand) :
    List String × List Item :=
  match c with
  | .malformed => st
  | .card c =>
    let r := zItem part st.1 c
    match r.2 with
    | none => (r.1, st.2)
    | some it => (r.1, st.2 ++ [it])

/-- `ZumiezScraper.parse` over the extracted `li.ProductCard`
candidates. -/
def zumiezParseCands (part : String) (cands : List ZCand) : List Item :=
  (cands.foldl (stepZ part) ([], [])).2

/-! ## SkateWarehouseScraper.parse (src/scraper.py:349) -/

/-- One anchor from `soup.find_all("a", href=True)`: its stripped visible
text and its `href` attribute. -/
structure Anchor where
  text : String
  href : String
deriving DecidableEq, Repr

/-- The SkateWarehouse href keyword pre-filter tokens. -/
def swHrefKeywords : List String := ["wheels", "truck", "bearings", "deck"]

/-- The SkateWarehouse href brand pre-filter tokens (already lowercase in
the source; `.lower()` is applied anyway). -/
def swHrefBrands : List String := ["bones", "spitfire", "independent", "bronson"]

/-- The SkateWarehouse pre-filters applied before URL dedup: the anchor's
href must contain a category or brand token, and its text must contain
the requested category's word. -/
def swPreSkip (part : String) (a : Anchor) : Bool :=
  (!(swHrefKeywords.any (fun k => hasSub k (pyLower a.href)))
      && !(swHrefBrands.any (fun b => hasSub b (pyLower a.href))))
    || (part == "Wheels" && !hasSub "Wheels" a.text)
    || (part == "Trucks" && !hasSub "Truck" a.text)
    || (part == "Bearings" && !hasSub "Bearings" a.text)
    || (part == "Decks" && !hasSub "Deck" a.text)

/-- The SkateWarehouse per-item pipeline after URL dedup: price regex,
name extraction (text before the first price, stripped), brand filters
and the decks discount gate. -/
def swEmit (part href : String) (a : Anchor) : Option Item :=
  match findPrices a.text.toList with
  | [] => none
  | p0 :: rest =>
    let name := pyStrip (String.mk (splitBefore ("$" ++ p0).toList a.text.toList))
    if name = "" then none
    else if part == "Wheels" && !wheelBrandOk name then none
    else if part == "Trucks" && !swTruckBrandOk name then none
    else if part == "Decks" && !deckKeep p0 rest.head? then none
    else some ⟨name, href, p0, rest.head?, "Check store", part, "SkateWarehouse"⟩

/-- One SkateWarehouse loop iteration.  The source has no per-item
`try`/`except`; every operation in its body is a total string operation,
and every skip path leaves `seen` untouched (the URL is only recorded
immediately before a record is appended). -/
def swItem (part : String) (seen : List String) (a : Anchor) :
    List String × Option Item :=
  if swPreSkip part a then (seen, none)
  else if absolutize "https://www.skatewarehouse.com" a.href ∈ seen then (seen, none)
  else
    match swEmit part (absolutize "https://www.skatewarehouse.com" a.href) a with
    | none => (seen, none)
    | some it => (seen ++ [absolutize "https://www.skatewarehouse.com" a.href], some it)

/-- One SkateWarehouse loop iteration at the accumulator level. -/
def stepSW (part : String) (st : List String × List Item) (a : Anchor) :
    List String × List Item :=
  let r := swItem part st.1 a
  match r.2 with
  | none => (r.1, st.2)
  | some it => (r.1, st.2 ++ [it])

/-- `SkateWarehouseScraper.parse` over the extracted anchors. -/
def swParseCands (part : String) (anchors : List Anchor) : List Item :=
  (anchors.foldl (stepSW part) ([], [])).2

/-! ## CCSScraper.parse (src/scraper.py:432) -/

/-- The link element resolved for one CCS container (the container itself
in the anchor-fallback case): `href`, `title` and `aria-label`
attributes (absent attributes read back as `""` via `get(..., "")`). -/
structure CCSLink where
  href : String
  title : String
  ariaLabel : String
deriving DecidableEq, Repr

/-- One CCS product container, described by what the per-item selectors
extract from it. -/
structure CCSCard where
  link : Option CCSLink
  titleText : Option String
  imgAlt : Option String
  priceCurrentText : Option String
  priceCompareText : Option String
  priceFullText : Option String
deriving DecidableEq, Repr

/-- A candidate CCS container; `malformed` models a container whose first
element access raises, exercising the per-item `except` clause. -/
inductive CCand where
  | card (c : CCSCard)
  | malformed
deriving DecidableEq, Repr

/-- The apparel/accessory exclusion keywords of `CCSScraper.parse`. -/
def nonSkateKeywords : List String :=
  ["hat", "cap", "shirt", "tee", "hoodie", "jacket", "pant", "short",
   "shoe", "sneaker", "sock", "backpack", "bag", "beanie", "glove"]

/-- CCS price resolution: first match of `\$?(\d+\.?\d*)` in the
dedicated current/compare price sub-elements; when no current price was
found there, fall back to the first two `\$(\d+\.?\d*)` matches of the
`.product-item__price` text (a compare price found earlier survives when
the fallback has a single match). -/
def ccsPrices (c : CCSCard) : Option String × Option String :=
  let pn0 := c.priceCurrentText.bind (fun t => (findNumsOpt t.toList).head?)
  let po0 := c.priceCompareText.bind (fun t => (findNumsOpt t.toList).head?)
  match pn0 with
  | some pn => (some pn, po0)
  | none =>
    match c.priceFullText with
    | none => (none, po0)
    | some t =>
      match findNumsD t.toList with
      | [] => (none, po0)
      | p :: rest => (some p, match rest with | [] => po0 | q :: _ => some q)

/-- CCS name resolution: the `.product-item__title` text, else stripped
image alt text, else the link's `title` attribute, else its `aria-label`
(Python's `title_attr or aria_label`). -/
def ccsName (l : CCSLink) (c : CCSCard) : String :=
  let name0 :=
    match c.titleText with
    | some t => t
    | none => match c.imgAlt with | some a => pyStrip a | none => ""
  if name0 = "" then (if l.title = "" then l.ariaLabel else l.title) else name0

/-- The CCS category keyword filters on the lowercased name and href. -/
def ccsCatSkip (part nameLower hrefLower : String) : Bool :=
  (part == "Decks" && (!hasSub "deck" nameLower && !hasSub "deck" hrefLower))
    || (part == "Wheels" && (!hasSub "wheel" nameLower && !hasSub "wheel" hrefLower))
    || (part == "Trucks" &&
        ((!hasSub "truck" nameLower || hasSub "trucker" nameLower)
          && !hasSub "truck" hrefLower))
    || (part == "Bearings" && (!hasSub "bearing" nameLower && !hasSub "bearing" hrefLower))

/-- The CCS per-item pipeline after URL dedup: name resolution with the
title/aria-label fallback, the non-skate keyword exclusion, the
category keyword filters, price resolution with its full-text fallback,
the decks discount gate and the wheels brand filter. -/
def ccsEmit (part href : String) (l : CCSLink) (c : CCSCard) : Option Item :=
  if ccsName l c = "" then none
  else if nonSkateKeywords.any (fun k => hasSub k (pyLower (ccsName l c))) then none
  else if ccsCatSkip part (pyLower (ccsName l c)) (pyLower href) then none
  else
    match ccsPrices c with
    | (none, _) => none
    | (some pn, po) =>
      if part == "Decks" && !deckKeep pn po then none
      else if part == "Wheels" && !wheelBrandOk (ccsName l c) then none
      else some ⟨ccsName l c, href, pn, po, "Check store", part, "CCS"⟩

/-- One CCS loop iteration on a well-formed container. -/
def ccsItem (part : String) (seen : List String) (c : CCSCard) :
    List String × Option Item :=
  match c.link with
  | none => (seen, none)
  | some l =>
    let href := absolutize "https://shop.ccs.com" l.href
    if href ∈ seen ∨ href = "" then (seen, none)
    else (seen ++ [href], ccsEmit part href l c)

/-- One CCS loop iteration including the per-item `try`/`except`. -/
def stepCCS (part : String) (st : List String × List Item) (c : CCand) :
    List String × List Item :=
  match c with
  | .malformed => st
  | .card c =>
    let r := ccsItem part st.1 c
    match r.2 with
    | none => (r.1, st.2)
    | some it => (r.1, st.2 ++ [it])

/-- `CCSScraper.parse` over a chosen candidate list. -/
def ccsParseCands (part : String) (cands : List CCand) : List Item :=
  (cands.foldl (stepCCS part) ([], [])).2

/-! ## TacticsScraper.parse (src/scraper.py:569) -/

/-- One Tactics product container, described by what the per-item
selectors extract: the resolved link href (the `a[href]` child, or the
container itself when it is an anchor), image alt text, the brand
sub-element text, the price sub-element text, the promo-bug text, and the
container's full visible text. -/
structure TacticsCard where
  linkHref : Option String
  imgAlt : Option String
  brandText : Option String
  priceText : Option String
  promoText : Option String
  fullText : String
deriving DecidableEq, Repr

/-- A candidate Tactics container; `malformed` models a container whose
first element access raises, exercising the per-item `except` clause. -/
inductive TCand where
  | card (c : TacticsCard)
  | malformed
deriving DecidableEq, Repr

/-- `price_new / (1 - pct / 100)` from the Tactics promo-bug branch — the
value is `100·n / (100 - pct)`, computed on the fraction representation
(negative overall when `pct > 100`); `pct = 100` is excluded by the
caller. -/
def promoBase (n : ℚ) (pct : Nat) : ℚ :=
  if pct < 100 then mkRat (n.num * 100) (n.den * (100 - pct))
  else mkRat (-(n.num * 100)) (n.den * (pct - 100))

/-- Tactics price resolution: `re.search(r"\$(\d+\.?\d*)")` on the price
sub-element text, promo-bug original-price synthesis
(`str(round(price_new / (1 - pct/100), 2))`), then the full-text
`re.findall` fallback.  The promo branch's division by zero at
`pct = 100` is swallowed by a bare `except: pass`, leaving the original
price unset. -/
def tacticsPrices (c : TacticsCard) : Option String × Option String :=
  let pn0 := c.priceText.bind (fun t => (findNumsD t.toList).head?)
  let po0 : Option String :=
    match c.promoText, pn0 with
    | some promo, some pn =>
      match findPct promo.toList with
      | some pct =>
        if pct = 100 then none
        else
          match pyFloat pn with
          | some n => some (pyRound2Str (promoBase n pct))
          | none => none
      | none => none
    | _, _ => none
  match pn0 with
  | some pn => (some pn, po0)
  | none =>
    match findNumsD c.fullText.toList with
    | [] => (none, po0)
    | p :: rest => (some p, match rest with | [] => po0 | q :: _ => some q)

/-- Tactics name resolution: stripped image alt text, else the brand
sub-element text. -/
def tacticsName (c : TacticsCard) : String :=
  let name0 := match c.imgAlt with | some a => pyStrip a | none => ""
  if name0 = "" then (match c.brandText with | some b => b | none => "") else name0

/-- The Tactics per-item pipeline after URL dedup: name resolution, price
resolution via `tacticsPrices`, the decks discount gate and the wheels
brand filter. -/
def tacticsEmit (part href : String) (c : TacticsCard) : Option Item :=
  if tacticsName c = "" then none
  else
    match tacticsPrices c with
    | (none, _) => none
    | (some pn, po) =>
      if part == "Decks" && !deckKeep pn po then none
      else if part == "Wheels" && !wheelBrandOk (tacticsName c) then none
      else some ⟨tacticsName c, href, pn, po, "Check store", part, "Tactics"⟩

/-- One Tactics loop iteration on a well-formed container. -/
def tacticsItem (part : String) (seen : List String) (c : TacticsCard) :
    List String × Option Item :=
  match c.linkHref with
  | none => (seen, none)
  | some h0 =>
    let href := absolutize "https://www.tactics.com" h0
    if href ∈ seen ∨ href = "" then (seen, none)
    else (seen ++ [href], tacticsEmit part href c)

/-- One Tactics loop iteration including the per-item `try`/`except`. -/
def stepT (part : String) (st : List String × List Item) (c : TCand) :
    List String × List Item :=
  match c with
  | .malformed => st
  | .card c =>
    let r := tacticsItem part st.1 c
    match r.2 with
    | none => (r.1, st.2)
    | some it => (r.1, st.2 ++ [it])

/-- `TacticsScraper.parse` over the extracted candidates. -/
def tacticsParseCands (part : String) (cands : List TCand) : List Item :=
  (cands.foldl (stepT part) ([], [])).2

/-! ## Full pages and the four `parse` entry points -/

/-- An abstract fetched page, described by what each source's container
selectors extract from it.  CCS keeps its two selector phases separate:
the primary `.product-item` containers and the `a[href*='/products/']`
fallback anchors, used only when the primary list is empty. -/
structure Html where
  zumiezCards : List ZCand
  swAnchors : List Anchor
  ccsPrimary : List CCand
  ccsFallback : List CCand
  tacticsCards : List TCand
deriving DecidableEq, Repr

/-- `ZumiezScraper.parse(html)`; `none` models falsy html (fetch
failure), returning `[]` at once. -/
def zumiezParse (part : String) (h : Option Html) : List Item :=
  match h with
  | none => []
  | some d => zumiezParseCands part d.zumiezCards

/-- `SkateWarehouseScraper.parse(html)`. -/
def swParse (part : String) (h : Option Html) : List Item :=
  match h with
  | none => []
  | some d => swParseCands part d.swAnchors

/-- `CCSScraper.parse(html)`, including the primary/fallback container
selection. -/
def ccsParse (part : String) (h : Option Html) : List Item :=
  match h with
  | none => []
  | some d =>
    ccsParseCands part (if d.ccsPrimary.isEmpty then d.ccsFallback else d.ccsPrimary)

/-- `TacticsScraper.parse(html)`. -/
def tacticsParse (part : String) (h : Option Html) : List Item :=
  match h with
  | none => []
  | some d => tacticsParseCands part d.tacticsCards

/-! ## Snapshots and the diff engine (src/scraper.py:711) -/

/-- A snapshot: the insertion-ordered dict mapping partition key
`"store_part"` to the list of records scraped for it. -/
abbrev Snapshot := List (String × List Item)

/-- Python dict assignment `m[k] = v` on an association list: overwrite
the entry when the key is present, append otherwise. -/
def dictInsert (m : List (String × List Item)) (k : String) (v : List Item) :
    List (String × List Item) :=
  if m.any (fun p => p.1 == k) then
    m.map (fun p => if p.1 == k then (k, v) else p)
  else m ++ [(k, v)]

/-- Dict lookup `m.get(k)` on a snapshot. -/
def sfind (s : Snapshot) (k : String) : Option (List Item) :=
  (List.find? (fun p => p.1 == k) s).map (fun p => p.2)

/-- `prev.get(site, [])` from `compare`. -/
def prevGet (s : Snapshot) (k : String) : List Item :=
  (sfind s k).getD []

/-- The Python dict comprehension
`{i["url"]: i for i in prev.get(site, [])}`: later entries with the same
URL overwrite earlier ones, insertion order is first-occurrence order. -/
def urlInsert (m : List (String × Item)) (i : Item) : List (String × Item) :=
  if m.any (fun p => p.1 == i.url) then
    m.map (fun p => if p.1 == i.url then (i.url, i) else p)
  else m ++ [(i.url, i)]

/-- Build the URL-keyed lookup of previous items. -/
def buildMap (items : List Item) : List (String × Item) :=
  items.foldl urlInsert []

/-- Lookup in the URL-keyed map (`prev_map.get(url)`). -/
def mget (m : List (String × Item)) (k : String) : Option Item :=
  (List.find? (fun p => p.1 == k) m).map (fun p => p.2)

/-- One classified change event (the dicts appended to `diffs`). -/
inductive Diff where
  | new (item : Item)
  | price_change (url old new name : String)
  | removed (item : Item)
deriving DecidableEq, Repr

/-- The categories for which a vanished previous item produces a
`removed` event (`valid_parts` in the source). -/
def validParts : List String := ["Decks", "Wheels", "Trucks", "Bearings"]

/-- The first loop of `compare`'s per-partition body: classify each
current item as new or price-changed against the previous URL map. -/
def npEvents (prevItems currItems : List Item) : List Diff :=
  currItems.filterMap (fun it =>
    match mget (buildMap prevItems) it.url with
    | none => some (Diff.new it)
    | some pi =>
      if it.price_new ≠ pi.price_new then
        some (Diff.price_change it.url pi.price_new it.price_new it.name)
      else none)

/-- The second loop of `compare`'s per-partition body: emit `removed` for
previous URLs absent from the current item set whose stored category is
allow-listed. -/
def removedEvents (prevItems currItems : List Item) : List Diff :=
  (buildMap prevItems).filterMap (fun p =>
    if p.1 ∈ currItems.map (fun i => i.url) then none
    else if p.2.part ∈ validParts then some (Diff.removed p.2) else none)

/-- The per-partition body of `compare`. -/
def partDiffs (prevItems currItems : List Item) : List Diff :=
  npEvents prevItems currItems ++ removedEvents prevItems currItems

/-- `compare(prev, curr)` (src/scraper.py:711): per partition key of the
current snapshot, the ordered change events; keys with no events are
omitted. -/
def compare (prev curr : Snapshot) : List (String × List Diff) :=
  curr.filterMap (fun p =>
    if partDiffs (prevGet prev p.1) p.2 = [] then none
    else some (p.1, partDiffs (prevGet prev p.1) p.2))

/-- The event list `compare` reports for one partition key (`[]` when the
key is omitted). -/
def eventsFor (c : List (String × List Diff)) (k : String) : List Diff :=
  ((List.find? (fun p => p.1 == k) c).map (fun p => p.2)).getD []

/-! ## The orchestration loop of `main` (src/scraper.py:1509) -/

/-- Which scraper class a configured source uses. -/
inductive VTag where
  | zumiez
  | skatewarehouse
  | ccs
  | tactics
deriving DecidableEq, Repr

/-- The fixed store-name literal each scraper class writes into its
records. -/
def storeName : VTag → String
  | .zumiez => "Zumiez"
  | .skatewarehouse => "SkateWarehouse"
  | .ccs => "CCS"
  | .tactics => "Tactics"

/-- One configured `(scraper class, name, category, url)` tuple from the
`scrapers` list in `main`. -/
structure ScraperCfg where
  variant : VTag
  name : String
  part : String
  url : String
deriving DecidableEq, Repr

/-- The partition key `f"{scraper.name}_{scraper.part}"`. -/
def keyOf (cfg : ScraperCfg) : String := cfg.name ++ "_" ++ cfg.part

/-- Dispatch `scraper.parse(html)` by scraper class. -/
def parseDispatch (cfg : ScraperCfg) (h : Option Html) : List Item :=
  match cfg.variant with
  | .zumiez => zumiezParse cfg.part h
  | .skatewarehouse => swParse cfg.part h
  | .ccs => ccsParse cfg.part h
  | .tactics => tacticsParse cfg.part h

/-- The accumulation loop of `main`: fetch and parse each configured
source in order and store the result under its partition key
(`curr_data[key] = items`).  `fetchResult` abstracts `fetch_page`; a
`none` result is a fetch failure after exhausted retries.  (The
surrounding `except` in `main`, which also stores `[]`, is unreachable in
the model because `parse` is total.) -/
def runAccumulate (fetchResult : ScraperCfg → Option Html)
    (cfgs : List ScraperCfg) : Snapshot :=
  cfgs.foldl (fun acc cfg => dictInsert acc (keyOf cfg) (parseDispatch cfg (fetchResult cfg))) []

/-- The sixteen configured scrapers of `main` (src/scraper.py:1510),
including the `ZumiezDecksScraper` / `CCSDecksScraper` /
`TacticsDecksScraper` convenience subclasses. -/
def mainScrapers : List ScraperCfg :=
  [⟨.zumiez, "Zumiez", "Decks",
      "https://www.zumiez.com/skate/skateboard-decks.html?customFilters=promotion_flag:Sale"⟩,
   ⟨.zumiez, "Zumiez", "Wheels",
      "https://www.zumiez.com/skate/skateboard-wheels.html?customFilters=promotion_flag:Sale"⟩,
   ⟨.zumiez, "Zumiez", "Trucks",
      "https://www.zumiez.com/skate/skateboard-trucks.html?customFilters=promotion_flag:Sale"⟩,
   ⟨.zumiez, "Zumiez", "Bearings",
      "https://www.zumiez.com/skate/skateboard-bearings.html?customFilters=promotion_flag:Sale"⟩,
   ⟨.skatewarehouse, "SkateWarehouse", "Decks",
      "https://www.skatewarehouse.com/Clearance_Skateboard_Decks/catpage-SALEDECK.html"⟩,
   ⟨.skatewarehouse, "SkateWarehouse", "Wheels",
      "https://www.skatewarehouse.com/Clearance_Skateboard_Wheels/catpage-SALEWHEELS.html"⟩,
   ⟨.skatewarehouse, "SkateWarehouse", "Trucks",
      "https://www.skatewarehouse.com/Clearance_Skateboard_Trucks/catpage-SALETRUCKS.html"⟩,
   ⟨.skatewarehouse, "SkateWarehouse", "Bearings",
      "https://www.skatewarehouse.com/Clearance_Skateboard_Bearings/catpage-SALEBEARINGS.html"⟩,
   ⟨.ccs, "CCS", "Decks", "https://shop.ccs.com/collections/clearance/skateboard-deck"⟩,
   ⟨.ccs, "CCS", "Wheels", "https://shop.ccs.com/collections/clearance/skateboard-wheels"⟩,
   ⟨.ccs, "CCS", "Trucks", "https://shop.ccs.com/collections/clearance/skateboard-trucks"⟩,
   ⟨.ccs, "CCS", "Bearings", "https://shop.ccs.com/collections/clearance/bearings"⟩,
   ⟨.tactics, "Tactics", "Decks", "https://www.tactics.com/skateboard-decks/sale"⟩,
   ⟨.tactics, "Tactics", "Wheels", "https://www.tactics.com/skateboard-wheels/sale"⟩,
   ⟨.tactics, "Tactics", "Trucks", "https://www.tactics.com/skateboard-trucks/sale"⟩,
   ⟨.tactics, "Tactics", "Bearings", "https://www.tactics.com/skateboard-bearings/sale"⟩]

/-! ## Character and string facts -/

theorem pyWs_eq_false_of_isDigit {c : Char} (h : c.isDigit = true) :
    pyWs c = false := by
  simp only [pyWs, Bool.or_eq_false_iff, beq_eq_false_iff_ne]
  refine ⟨⟨⟨⟨⟨?_, ?_⟩, ?_⟩, ?_⟩, ?_⟩, ?_⟩ <;>
    (rintro rfl; exact absurd h (by decide))

theorem dropWhile_eq_self_of {p : Char → Bool} {l : List Char}
    (h : ∀ c, l.head? = some c → p c = false) : l.dropWhile p = l := by
  cases l with
  | nil => rfl
  | cons c t =>
    rw [List.dropWhile_cons, if_neg]
    simp [h c rfl]

theorem pyStripList_eq_self {l : List Char} (h : ∀ c ∈ l, pyWs c = false) :
    pyStripList l = l := by
  unfold pyStripList dropTrailing
  rw [dropWhile_eq_self_of, dropWhile_eq_self_of, List.reverse_reverse]
  · intro c hc
    have hm : c ∈ l := List.mem_of_mem_head? (Option.mem_def.mpr hc)
    exact h c hm
  · intro c hc
    have hm : c ∈ (l.dropWhile pyWs).reverse :=
      List.mem_of_mem_head? (Option.mem_def.mpr hc)
    exact h c ((List.dropWhile_sublist _).subset (List.mem_reverse.mp hm))

theorem takeWhile_append_of {p : Char → Bool} {ds rest : List Char}
    (hds : ∀ c ∈ ds, p c = true)
    (hr : ∀ c, rest.head? = some c → p c = false) :
    (ds ++ rest).takeWhile p = ds := by
  induction ds with
  | nil =>
    cases rest with
    | nil => rfl
    | cons r rs =>
      simp [List.takeWhile_cons, hr r rfl]
  | cons d ds ih =>
    simp only [List.cons_append, List.takeWhile_cons,
      hds d (List.mem_cons_self d ds), if_true]
    rw [ih (fun c hc => hds c (List.mem_cons_of_mem d hc))]

theorem toList_mk (l : List Char) : (String.mk l).toList = l := rfl

theorem mk_ne_empty {l : List Char} (h : l ≠ []) : String.mk l ≠ "" := by
  intro he
  exact h (by simpa using congrArg String.toList he)

/-! ## Parseability of regex-extracted prices -/

theorem pySign_digit {c : Char} {r : List Char} (h : c.isDigit = true) :
    pySign (c :: r) = (false, c :: r) := by
  rw [pySign, if_neg, if_neg] <;> (rintro rfl; exact absurd h (by decide))

theorem pyFloat_digits {d1 : List Char} (h1 : d1 ≠ [])
    (hd : ∀ c ∈ d1, c.isDigit = true) :
    pyFloat (String.mk d1) = some (digitsToNat d1 : ℚ) := by
  unfold pyFloat
  rw [toList_mk, pyStripList_eq_self (fun c hc => pyWs_eq_false_of_isDigit (hd c hc))]
  obtain ⟨c, t, rfl⟩ := List.exists_cons_of_ne_nil h1
  unfold pyFloatCore
  rw [pySign_digit (hd c (List.mem_cons_self c t))]
  have htw : ((c :: t) ++ ([] : List Char)).takeWhile Char.isDigit = c :: t :=
    takeWhile_append_of hd (by intro c hc; simp at hc)
  rw [List.append_nil] at htw
  unfold parseUnsigned
  simp only [htw, List.drop_length]
  simp [pyAfterMantissa, applyNeg]

theorem pyFloat_digits_dot_digits {d1 d2 : List Char} (h1 : d1 ≠ [])
    (hd1 : ∀ c ∈ d1, c.isDigit = true) (hd2 : ∀ c ∈ d2, c.isDigit = true) :
    ∃ q, pyFloat (String.mk (d1 ++ '.' :: d2)) = some q := by
  unfold pyFloat
  rw [toList_mk, pyStripList_eq_self]
  · obtain ⟨c, t, rfl⟩ := List.exists_cons_of_ne_nil h1
    unfold pyFloatCore
    rw [show ((c :: t) ++ '.' :: d2) = c :: (t ++ '.' :: d2) from rfl,
      pySign_digit (hd1 c (List.mem_cons_self c t))]
    have htw : ((c :: t) ++ '.' :: d2).takeWhile Char.isDigit = c :: t :=
      takeWhile_append_of hd1
        (by intro x hx
            simp only [List.head?_cons, Option.some_inj] at hx
            subst hx; decide)
    have hdr : ((c :: t) ++ '.' :: d2).drop (c :: t).length = '.' :: d2 :=
      List.drop_left _ _
    unfold parseUnsigned
    simp only [show c :: (t ++ '.' :: d2) = (c :: t) ++ '.' :: d2 from rfl, htw, hdr]
    have htw2 : d2.takeWhile Char.isDigit = d2 := by
      have := @takeWhile_append_of Char.isDigit _ [] hd2
        (by intro x hx; simp at hx)
      simpa using this
    simp only [if_pos rfl, htw2, List.drop_length]
    have : ((c :: t).isEmpty && d2.isEmpty) = false := by simp
    rw [this]
    simp [pyAfterMantissa, applyNeg]
  · intro x hx
    rcases List.mem_append.mp hx with hx | hx
    · exact pyWs_eq_false_of_isDigit (hd1 x hx)
    · rcases List.mem_cons.mp hx with rfl | hx
      · decide
      · exact pyWs_eq_false_of_isDigit (hd2 x hx)

/-- Every string captured by `grabNum` is nonempty and `float()`-parseable. -/
theorem grabNum_parseable {l : List Char} {p : String} {rem : List Char}
    (h : grabNum l = some (p, rem)) : p ≠ "" ∧ ∃ q, pyFloat p = some q := by
  unfold grabNum at h
  by_cases hd : (l.takeWhile Char.isDigit).isEmpty
  · simp [hd] at h
  · simp only [hd, if_false, Bool.false_eq_true] at h
    have hne : l.takeWhile Char.isDigit ≠ [] := by
      simpa [List.isEmpty_iff] using hd
    have hdig : ∀ c ∈ l.takeWhile Char.isDigit, c.isDigit = true :=
      fun c hc => List.mem_takeWhile_imp hc
    split at h
    · rw [Option.some_inj] at h
      have hp : p = String.mk (l.takeWhile Char.isDigit) :=
        (congrArg Prod.fst h).symm
      subst hp
      exact ⟨mk_ne_empty hne, _, pyFloat_digits hne hdig⟩
    next c r2 heq =>
      split at h
      · rw [Option.some_inj] at h
        have hp : p = String.mk
            (l.takeWhile Char.isDigit ++ '.' :: r2.takeWhile Char.isDigit) :=
          (congrArg Prod.fst h).symm
        subst hp
        refine ⟨mk_ne_empty (by simp [hne]), ?_⟩
        exact pyFloat_digits_dot_digits hne hdig
          (fun c hc => List.mem_takeWhile_imp hc)
      · rw [Option.some_inj] at h
        have hp : p = String.mk (l.takeWhile Char.isDigit) :=
          (congrArg Prod.fst h).symm
        subst hp
        exact ⟨mk_ne_empty hne, _, pyFloat_digits hne hdig⟩

/-- Every string captured by `matchPrice` is nonempty and
`float()`-parseable. -/
theorem matchPrice_parseable {l : List Char} {p : String} {rem : List Char}
    (h : matchPrice l = some (p, rem)) : p ≠ "" ∧ ∃ q, pyFloat p = some q := by
  unfold matchPrice at h
  by_cases hd : (l.takeWhile Char.isDigit).isEmpty
  · simp [hd] at h
  · simp only [hd, if_false, Bool.false_eq_true] at h
    have hne : l.takeWhile Char.isDigit ≠ [] := by
      simpa [List.isEmpty_iff] using hd
    have hdig : ∀ c ∈ l.takeWhile Char.isDigit, c.isDigit = true :=
      fun c hc => List.mem_takeWhile_imp hc
    split at h
    next c0 c1 c2 rest heq =>
      split at h
      next hcond =>
        rw [Option.some_inj] at h
        have hp : p = String.mk (l.takeWhile Char.isDigit ++ '.' :: c1 :: [c2]) :=
          (congrArg Prod.fst h).symm
        subst hp
        refine ⟨mk_ne_empty (by simp [hne]), ?_⟩
        refine pyFloat_digits_dot_digits hne hdig ?_
        intro x hx
        rcases List.mem_cons.mp hx with rfl | hx
        · exact hcond.2.1
        · rcases List.mem_cons.mp hx with rfl | hx
          · exact hcond.2.2
          · simp at hx
      · exact absurd h (by simp)
    next => exact absurd h (by simp)

theorem findNumsDF_parseable : ∀ {fuel : Nat} {l : List Char} {p : String},
    p ∈ findNumsDF fuel l → p ≠ "" ∧ ∃ q, pyFloat p = some q := by
  intro fuel
  induction fuel with
  | zero => intro l p h; simp [findNumsDF] at h
  | succ fuel ih =>
    intro l p h
    match l with
    | [] => simp [findNumsDF] at h
    | c :: rest =>
      simp only [findNumsDF] at h
      split at h
      · split at h
        · next p2 rem heq =>
          rcases List.mem_cons.mp h with rfl | h
          · exact grabNum_parseable heq
          · exact ih h
        · exact ih h
      · exact ih h

/-- Every string produced by `findNumsD` is nonempty and
`float()`-parseable. -/
theorem findNumsD_parseable {l : List Char} {p : String}
    (h : p ∈ findNumsD l) : p ≠ "" ∧ ∃ q, pyFloat p = some q :=
  findNumsDF_parseable h

theorem findNumsOptF_parseable : ∀ {fuel : Nat} {l : List Char} {p : String},
    p ∈ findNumsOptF fuel l → p ≠ "" ∧ ∃ q, pyFloat p = some q := by
  intro fuel
  induction fuel with
  | zero => intro l p h; simp [findNumsOptF] at h
  | succ fuel ih =>
    intro l p h
    match l with
    | [] => simp [findNumsOptF] at h
    | c :: rest =>
      simp only [findNumsOptF] at h
      split at h
      · split at h
        · next p2 rem heq =>
          rcases List.mem_cons.mp h with rfl | h
          · exact grabNum_parseable heq
          · exact ih h
        · exact ih h
      · split at h
        · next p2 rem heq =>
          rcases List.mem_cons.mp h with rfl | h
          · exact grabNum_parseable heq
          · exact ih h
        · exact ih h

/-- Every string produced by `findNumsOpt` is nonempty and
`float()`-parseable. -/
theorem findNumsOpt_parseable {l : List Char} {p : String}
    (h : p ∈ findNumsOpt l) : p ≠ "" ∧ ∃ q, pyFloat p = some q :=
  findNumsOptF_parseable h

theorem findPricesF_parseable : ∀ {fuel : Nat} {l : List Char} {p : String},
    p ∈ findPricesF fuel l → p ≠ "" ∧ ∃ q, pyFloat p = some q := by
  intro fuel
  induction fuel with
  | zero => intro l p h; simp [findPricesF] at h
  | succ fuel ih =>
    intro l p h
    match l with
    | [] => simp [findPricesF] at h
    | c :: rest =>
      simp only [findPricesF] at h
      split at h
      · split at h
        · next p2 rem heq =>
          rcases List.mem_cons.mp h with rfl | h
          · exact matchPrice_parseable heq
          · exact ih h
        · exact ih h
      · exact ih h

/-- Every string produced by `findPrices` is nonempty and
`float()`-parseable. -/
theorem findPrices_parseable {l : List Char} {p : String}
    (h : p ∈ findPrices l) : p ≠ "" ∧ ∃ q, pyFloat p = some q :=
  findPricesF_parseable h

/-! ## Generic facts about the per-item accumulation loops -/

section FoldStep

variable {α : Type} {step : (List String × List Item) → α → List String × List Item}

/-- The `seen` set only grows across one loop iteration. -/
def SeenMono (step : (List String × List Item) → α → List String × List Item) :
    Prop :=
  ∀ st c u, u ∈ st.1 → u ∈ (step st c).1

/-- Each loop iteration appends at most one record, and an appended
record's URL was fresh and is afterwards in `seen`. -/
def StepShape (step : (List String × List Item) → α → List String × List Item) :
    Prop :=
  ∀ st c, (step st c).2 = st.2 ∨
    ∃ it, (step st c).2 = st.2 ++ [it] ∧ it.url ∉ st.1 ∧ it.url ∈ (step st c).1

theorem foldl_urls_nodup (h1 : SeenMono step) (h2 : StepShape step) :
    ∀ (cs : List α) (st : List String × List Item),
      (∀ u ∈ st.2.map (fun i => i.url), u ∈ st.1) →
      (st.2.map (fun i => i.url)).Nodup →
      ((cs.foldl step st).2.map (fun i => i.url)).Nodup := by
  intro cs
  induction cs with
  | nil => intro st _ hnd; simpa using hnd
  | cons c cs ih =>
    intro st hsub hnd
    rw [List.foldl_cons]
    rcases h2 st c with hkeep | ⟨it, hout, hfresh, hmem⟩
    · refine ih (step st c) ?_ ?_
      · intro u hu
        rw [hkeep] at hu
        exact h1 st c u (hsub u hu)
      · rw [hkeep]; exact hnd
    · refine ih (step st c) ?_ ?_
      · intro u hu
        rw [hout] at hu
        simp only [List.map_append, List.map_cons, List.map_nil,
          List.mem_append, List.mem_singleton] at hu
        rcases hu with hu | rfl
        · exact h1 st c u (hsub u hu)
        · exact hmem
      · rw [hout, List.map_append]
        simp only [List.map_cons, List.map_nil]
        rw [List.nodup_append]
        refine ⟨hnd, List.nodup_singleton _, ?_⟩
        intro u hu hu2
        simp only [List.mem_singleton] at hu2
        subst hu2
        exact hfresh (hsub _ hu)

theorem foldl_all_records (P : Item → Prop) (h2 : StepShape step)
    (hP : ∀ st c it, (step st c).2 = st.2 ++ [it] → P it) :
    ∀ (cs : List α) (st : List String × List Item),
      (∀ r ∈ st.2, P r) → ∀ r ∈ (cs.foldl step st).2, P r := by
  intro cs
  induction cs with
  | nil => intro st hst; simpa using hst
  | cons c cs ih =>
    intro st hst
    rw [List.foldl_cons]
    refine ih (step st c) ?_
    rcases h2 st c with hkeep | ⟨it, hout, _, _⟩
    · rw [hkeep]; exact hst
    · rw [hout]
      intro r hr
      rcases List.mem_append.mp hr with hr | hr
      · exact hst r hr
      · rw [List.mem_singleton] at hr
        subst hr
        exact hP st c r hout

end FoldStep

/-! ## ZumiezScraper.parse: structural lemmas -/

theorem zEmit_spec {part href : String} {l : ZumiezLink} {c : ZumiezCard}
    {it : Item} (h : zEmit part href l c = some it) :
    it.url = href ∧ it.availability = "Check store" ∧ it.part = part ∧
    it.store = "Zumiez" ∧ it.price_new ≠ "" ∧
    (∃ t, c.salePriceText = some t ∧ it.price_new = stripDollars t) ∧
    (part = "Wheels" → wheelBrandOk it.name = true) ∧
    (part = "Decks" → deckKeep it.price_new it.price_old = true) := by
  simp only [zEmit] at h
  split at h
  · cases h
  · next hname =>
    split at h
    · cases h
    · next hwheels =>
      split at h
      · cases h
      · next sp heq =>
        split at h
        · cases h
        · next hsp =>
          split at h
          · cases h
          · next hdecks =>
            cases h
            refine ⟨rfl, rfl, rfl, rfl, hsp, ?_, ?_, ?_⟩
            · rcases Option.map_eq_some'.mp heq with ⟨t, ht, rfl⟩
              exact ⟨t, ht, rfl⟩
            · intro hw
              subst hw
              simpa using hwheels
            · intro hd
              subst hd
              simpa using hdecks

theorem zItem_seen {part : String} {seen : List String} {c : ZumiezCard} :
    ∀ u ∈ seen, u ∈ (zItem part seen c).1 := by
  intro u hu
  simp only [zItem]
  split
  · exact hu
  · split
    · exact hu
    · exact List.mem_append_left _ hu

theorem zItem_some {part : String} {seen seen2 : List String} {c : ZumiezCard}
    {it : Item} (h : zItem part seen c = (seen2, some it)) :
    it.url ∉ seen ∧ it.url ∈ seen2 ∧
    ∃ l href, c.link = some l ∧ zEmit part href l c = some it ∧ it.url = href := by
  simp only [zItem] at h
  split at h
  · cases h
  · next l hl =>
    split at h
    · cases h
    · next hfresh =>
      rw [Prod.mk.injEq] at h
      obtain ⟨rfl, hemit⟩ := h
      have hspec := zEmit_spec hemit
      refine ⟨?_, ?_, l, _, hl, hemit, hspec.1⟩
      · rw [hspec.1]; exact hfresh
      · rw [hspec.1]
        exact List.mem_append_right _ (List.mem_singleton_self _)

theorem stepZ_seenMono (part : String) : SeenMono (stepZ part) := by
  intro st c u hu
  simp only [stepZ]
  split
  · exact hu
  · next cc =>
    rcases hr : zItem part st.1 cc with ⟨seen2, opt⟩
    cases opt with
    | none =>
      have := @zItem_seen part _ cc u hu
      rw [hr] at this
      simpa using this
    | some it =>
      have := @zItem_seen part _ cc u hu
      rw [hr] at this
      simpa using this

theorem stepZ_shape (part : String) : StepShape (stepZ part) := by
  intro st c
  simp only [stepZ]
  split
  · exact Or.inl rfl
  · next cc =>
    rcases hr : zItem part st.1 cc with ⟨seen2, opt⟩
    cases opt with
    | none => exact Or.inl rfl
    | some it =>
      right
      obtain ⟨hfresh, hmem, _⟩ := zItem_some hr
      exact ⟨it, rfl, hfresh, hmem⟩

theorem stepZ_emitted (part : String) {st : List String × List Item}
    {c : ZCand} {it : Item} (h : (stepZ part st c).2 = st.2 ++ [it]) :
    ∃ href l cc, zEmit part href l cc = some it := by
  simp only [stepZ] at h
  split at h
  · exact absurd h (by simp)
  · next cc =>
    rcases hr : zItem part st.1 cc with ⟨seen2, opt⟩
    rw [hr] at h
    cases opt with
    | none => exact absurd h (by simp)
    | some it2 =>
      simp only at h
      have hit : it2 = it := by
        have := List.append_cancel_left h
        simpa using this
      subst hit
      obtain ⟨_, _, l, href, _, hemit, _⟩ := zItem_some hr
      exact ⟨href, l, cc, hemit⟩

/-- The invariants shared by the records of every scraper variant. -/
def RecordOk (store part : String) (it : Item) : Prop :=
  it.availability = "Check store" ∧ it.part = part ∧ it.store = store ∧
  it.price_new ≠ "" ∧
  (part = "Wheels" → wheelBrandOk it.name = true) ∧
  (part = "Decks" → deckKeep it.price_new it.price_old = true)

theorem zEmit_recordOk {part href : String} {l : ZumiezLink} {c : ZumiezCard}
    {it : Item} (h : zEmit part href l c = some it) : RecordOk "Zumiez" part it := by
  obtain ⟨_, h1, h2, h3, h4, _, h5, h6⟩ := zEmit_spec h
  exact ⟨h1, h2, h3, h4, h5, h6⟩

theorem zumiezParseCands_urls_nodup (part : String) (cands : List ZCand) :
    ((zumiezParseCands part cands).map (fun i => i.url)).Nodup := by
  unfold zumiezParseCands
  exact foldl_urls_nodup (stepZ_seenMono part) (stepZ_shape part) cands ([], [])
    (by simp) (by simp)

theorem zumiezParseCands_records (part : String) (cands : List ZCand) :
    ∀ r ∈ zumiezParseCands part cands, RecordOk "Zumiez" part r := by
  unfold zumiezParseCands
  refine foldl_all_records _ (stepZ_shape part) ?_ cands ([], []) (by simp)
  intro st c it h
  obtain ⟨href, l, cc, hemit⟩ := stepZ_emitted part h
  exact zEmit_recordOk hemit

/-! ## SkateWarehouseScraper.parse: structural lemmas -/

theorem swEmit_spec {part href : String} {a : Anchor} {it : Item}
    (h : swEmit part href a = some it) :
    it.url = href ∧ RecordOk "SkateWarehouse" part it ∧
    (∃ q, pyFloat it.price_new = some q) ∧
    (part = "Trucks" → swTruckBrandOk it.name = true) := by
  simp only [swEmit] at h
  split at h
  · cases h
  · next p0 rest heqp =>
    split at h
    · cases h
    · next hname =>
      split at h
      · cases h
      · next hwheels =>
        split at h
        · cases h
        · next htrucks =>
          split at h
          · cases h
          · next hdecks =>
            cases h
            have hp0 : p0 ∈ findPrices a.text.toList := by
              rw [heqp]; exact List.mem_cons_self _ _
            obtain ⟨hne, hq⟩ := findPrices_parseable hp0
            refine ⟨rfl, ⟨rfl, rfl, rfl, hne, ?_, ?_⟩, hq, ?_⟩
            · intro hw; subst hw; simpa using hwheels
            · intro hd; subst hd; simpa using hdecks
            · intro ht; subst ht; simpa using htrucks

theorem swItem_some {part : String} {seen seen2 : List String} {a : Anchor}
    {it : Item} (h : swItem part seen a = (seen2, some it)) :
    it.url ∉ seen ∧ it.url ∈ seen2 ∧
    RecordOk "SkateWarehouse" part it ∧
    (∃ q, pyFloat it.price_new = some q) ∧
    (part = "Trucks" → swTruckBrandOk it.name = true) := by
  unfold swItem at h
  split at h
  · cases h
  · split at h
    · cases h
    · next hfresh =>
      split at h
      · cases h
      · next it2 hemit =>
        rw [Prod.mk.injEq] at h
        obtain ⟨rfl, hit⟩ := h
        rw [Option.some_inj] at hit
        subst hit
        obtain ⟨hurl, hrec, hq, ht⟩ := swEmit_spec hemit
        refine ⟨?_, ?_, hrec, hq, ht⟩
        · rw [hurl]; exact hfresh
        · rw [hurl]
          exact List.mem_append_right _ (List.mem_singleton_self _)

theorem swItem_seen {part : String} {seen : List String} {a : Anchor} :
    ∀ u ∈ seen, u ∈ (swItem part seen a).1 := by
  intro u hu
  unfold swItem
  split
  · exact hu
  · split
    · exact hu
    · split
      · exact hu
      · exact List.mem_append_left _ hu

theorem stepSW_seenMono (part : String) : SeenMono (stepSW part) := by
  intro st a u hu
  simp only [stepSW]
  rcases hr : swItem part st.1 a with ⟨seen2, opt⟩
  cases opt with
  | none =>
    have := @swItem_seen part _ a u hu
    rw [hr] at this
    simpa using this
  | some it =>
    have := @swItem_seen part _ a u hu
    rw [hr] at this
    simpa using this

theorem stepSW_shape (part : String) : StepShape (stepSW part) := by
  intro st a
  simp only [stepSW]
  rcases hr : swItem part st.1 a with ⟨seen2, opt⟩
  cases opt with
  | none => exact Or.inl rfl
  | some it =>
    right
    obtain ⟨hfresh, hmem, _, _, _⟩ := swItem_some hr
    exact ⟨it, rfl, hfresh, hmem⟩

theorem stepSW_emitted (part : String) {st : List String × List Item}
    {a : Anchor} {it : Item} (h : (stepSW part st a).2 = st.2 ++ [it]) :
    RecordOk "SkateWarehouse" part it ∧ (∃ q, pyFloat it.price_new = some q) ∧
    (part = "Trucks" → swTruckBrandOk it.name = true) := by
  simp only [stepSW] at h
  rcases hr : swItem part st.1 a with ⟨seen2, opt⟩
  rw [hr] at h
  cases opt with
  | none => exact absurd h (by simp)
  | some it2 =>
    simp only at h
    have hit : it2 = it := by
      have := List.append_cancel_left h
      simpa using this
    subst hit
    obtain ⟨_, _, hrec, hq, ht⟩ := swItem_some hr
    exact ⟨hrec, hq, ht⟩

theorem swParseCands_urls_nodup (part : String) (anchors : List Anchor) :
    ((swParseCands part anchors).map (fun i => i.url)).Nodup := by
  unfold swParseCands
  exact foldl_urls_nodup (stepSW_seenMono part) (stepSW_shape part) anchors ([], [])
    (by simp) (by simp)

theorem swParseCands_records (part : String) (anchors : List Anchor) :
    ∀ r ∈ swParseCands part anchors,
      RecordOk "SkateWarehouse" part r ∧ (∃ q, pyFloat r.price_new = some q) ∧
      (part = "Trucks" → swTruckBrandOk r.name = true) := by
  unfold swParseCands
  refine foldl_all_records _ (stepSW_shape part) ?_ anchors ([], []) (by simp)
  intro st a it h
  exact stepSW_emitted part h

/-! ## CCSScraper.parse: structural lemmas -/

theorem ccsPrices_fst {c : CCSCard} {pn : String} {po : Option String}
    (h : ccsPrices c = (some pn, po)) :
    pn ≠ "" ∧ ∃ q, pyFloat pn = some q := by
  simp only [ccsPrices] at h
  split at h
  · next pn0 heq =>
    rw [Prod.mk.injEq, Option.some_inj] at h
    obtain ⟨rfl, _⟩ := h
    obtain ⟨t, _, hhd⟩ := Option.bind_eq_some.mp heq
    exact findNumsOpt_parseable (List.mem_of_mem_head? (Option.mem_def.mpr hhd))
  · split at h
    · cases h
    · next t =>
      split at h
      · cases h
      · next p rest heq =>
        rw [Prod.mk.injEq, Option.some_inj] at h
        obtain ⟨rfl, _⟩ := h
        have hmem := List.mem_cons_self p rest
        rw [← heq] at hmem
        exact findNumsD_parseable hmem

theorem ccsEmit_spec {part href : String} {l : CCSLink} {c : CCSCard}
    {it : Item} (h : ccsEmit part href l c = some it) :
    it.url = href ∧ RecordOk "CCS" part it ∧
    (∃ q, pyFloat it.price_new = some q) := by
  simp only [ccsEmit] at h
  split at h
  · cases h
  · split at h
    · cases h
    · split at h
      · cases h
      · split at h
        · cases h
        · next pn po heqp =>
          split at h
          · cases h
          · next hdecks =>
            split at h
            · cases h
            · next hwheels =>
              cases h
              obtain ⟨hne, hq⟩ := ccsPrices_fst heqp
              refine ⟨rfl, ⟨rfl, rfl, rfl, hne, ?_, ?_⟩, hq⟩
              · intro hw; subst hw; simpa using hwheels
              · intro hd; subst hd; simpa using hdecks

theorem ccsItem_seen {part : String} {seen : List String} {c : CCSCard} :
    ∀ u ∈ seen, u ∈ (ccsItem part seen c).1 := by
  intro u hu
  simp only [ccsItem]
  split
  · exact hu
  · split
    · exact hu
    · exact List.mem_append_left _ hu

theorem ccsItem_some {part : String} {seen seen2 : List String} {c : CCSCard}
    {it : Item} (h : ccsItem part seen c = (seen2, some it)) :
    it.url ∉ seen ∧ it.url ∈ seen2 ∧ RecordOk "CCS" part it ∧
    (∃ q, pyFloat it.price_new = some q) := by
  simp only [ccsItem] at h
  split at h
  · cases h
  · next l hl =>
    split at h
    · cases h
    · next hfresh =>
      rw [Prod.mk.injEq] at h
      obtain ⟨rfl, hemit⟩ := h
      obtain ⟨hurl, hrec, hq⟩ := ccsEmit_spec hemit
      rw [not_or] at hfresh
      refine ⟨?_, ?_, hrec, hq⟩
      · rw [hurl]; exact hfresh.1
      · rw [hurl]
        exact List.mem_append_right _ (List.mem_singleton_self _)

theorem stepCCS_seenMono (part : String) : SeenMono (stepCCS part) := by
  intro st c u hu
  simp only [stepCCS]
  split
  · exact hu
  · next cc =>
    rcases hr : ccsItem part st.1 cc with ⟨seen2, opt⟩
    cases opt with
    | none =>
      have := @ccsItem_seen part _ cc u hu
      rw [hr] at this
      simpa using this
    | some it =>
      have := @ccsItem_seen part _ cc u hu
      rw [hr] at this
      simpa using this

theorem stepCCS_shape (part : String) : StepShape (stepCCS part) := by
  intro st c
  simp only [stepCCS]
  split
  · exact Or.inl rfl
  · next cc =>
    rcases hr : ccsItem part st.1 cc with ⟨seen2, opt⟩
    cases opt with
    | none => exact Or.inl rfl
    | some it =>
      right
      obtain ⟨hfresh, hmem, _, _⟩ := ccsItem_some hr
      exact ⟨it, rfl, hfresh, hmem⟩

theorem stepCCS_emitted (part : String) {st : List String × List Item}
    {c : CCand} {it : Item} (h : (stepCCS part st c).2 = st.2 ++ [it]) :
    RecordOk "CCS" part it ∧ (∃ q, pyFloat it.price_new = some q) := by
  simp only [stepCCS] at h
  split at h
  · exact absurd h (by simp)
  · next cc =>
    rcases hr : ccsItem part st.1 cc with ⟨seen2, opt⟩
    rw [hr] at h
    cases opt with
    | none => exact absurd h (by simp)
    | some it2 =>
      simp only at h
      have hit : it2 = it := by
        have := List.append_cancel_left h
        simpa using this
      subst hit
      obtain ⟨_, _, hrec, hq⟩ := ccsItem_some hr
      exact ⟨hrec, hq⟩

theorem ccsParseCands_urls_nodup (part : String) (cands : List CCand) :
    ((ccsParseCands part cands).map (fun i => i.url)).Nodup := by
  unfold ccsParseCands
  exact foldl_urls_nodup (stepCCS_seenMono part) (stepCCS_shape part) cands ([], [])
    (by simp) (by simp)

theorem ccsParseCands_records (part : String) (cands : List CCand) :
    ∀ r ∈ ccsParseCands part cands,
      RecordOk "CCS" part r ∧ (∃ q, pyFloat r.price_new = some q) := by
  unfold ccsParseCands
  refine foldl_all_records _ (stepCCS_shape part) ?_ cands ([], []) (by simp)
  intro st c it h
  exact stepCCS_emitted part h

/-! ## TacticsScraper.parse: structural lemmas -/

theorem tacticsPrices_fst {c : TacticsCard} {pn : String} {po : Option String}
    (h : tacticsPrices c = (some pn, po)) :
    pn ≠ "" ∧ ∃ q, pyFloat pn = some q := by
  simp only [tacticsPrices] at h
  split at h
  · next pn0 heq =>
    rw [Prod.mk.injEq, Option.some_inj] at h
    obtain ⟨rfl, _⟩ := h
    obtain ⟨t, _, hhd⟩ := Option.bind_eq_some.mp heq
    exact findNumsD_parseable (List.mem_of_mem_head? (Option.mem_def.mpr hhd))
  · split at h
    · cases h
    · next p rest heq =>
      rw [Prod.mk.injEq, Option.some_inj] at h
      obtain ⟨rfl, _⟩ := h
      have hmem := List.mem_cons_self p rest
      rw [← heq] at hmem
      exact findNumsD_parseable hmem

theorem tacticsEmit_spec {part href : String} {c : TacticsCard}
    {it : Item} (h : tacticsEmit part href c = some it) :
    it.url = href ∧ RecordOk "Tactics" part it ∧
    (∃ q, pyFloat it.price_new = some q) := by
  simp only [tacticsEmit] at h
  split at h
  · cases h
  · split at h
    · cases h
    · next pn po heqp =>
      split at h
      · cases h
      · next hdecks =>
        split at h
        · cases h
        · next hwheels =>
          cases h
          obtain ⟨hne, hq⟩ := tacticsPrices_fst heqp
          refine ⟨rfl, ⟨rfl, rfl, rfl, hne, ?_, ?_⟩, hq⟩
          · intro hw; subst hw; simpa using hwheels
          · intro hd; subst hd; simpa using hdecks

theorem tacticsItem_seen {part : String} {seen : List String} {c : TacticsCard} :
    ∀ u ∈ seen, u ∈ (tacticsItem part seen c).1 := by
  intro u hu
  simp only [tacticsItem]
  split
  · exact hu
  · split
    · exact hu
    · exact List.mem_append_left _ hu

theorem tacticsItem_some {part : String} {seen seen2 : List String}
    {c : TacticsCard} {it : Item}
    (h : tacticsItem part seen c = (seen2, some it)) :
    it.url ∉ seen ∧ it.url ∈ seen2 ∧ RecordOk "Tactics" part it ∧
    (∃ q, pyFloat it.price_new = some q) := by
  simp only [tacticsItem] at h
  split at h
  · cases h
  · next h0 hl =>
    split at h
    · cases h
    · next hfresh =>
      rw [Prod.mk.injEq] at h
      obtain ⟨rfl, hemit⟩ := h
      obtain ⟨hurl, hrec, hq⟩ := tacticsEmit_spec hemit
      rw [not_or] at hfresh
      refine ⟨?_, ?_, hrec, hq⟩
      · rw [hurl]; exact hfresh.1
      · rw [hurl]
        exact List.mem_append_right _ (List.mem_singleton_self _)

theorem stepT_seenMono (part : String) : SeenMono (stepT part) := by
  intro st c u hu
  simp only [stepT]
  split
  · exact hu
  · next cc =>
    rcases hr : tacticsItem part st.1 cc with ⟨seen2, opt⟩
    cases opt with
    | none =>
      have := @tacticsItem_seen part _ cc u hu
      rw [hr] at this
      simpa using this
    | some it =>
      have := @tacticsItem_seen part _ cc u hu
      rw [hr] at this
      simpa using this

theorem stepT_shape (part : String) : StepShape (stepT part) := by
  intro st c
  simp only [stepT]
  split
  · exact Or.inl rfl
  · next cc =>
    rcases hr : tacticsItem part st.1 cc with ⟨seen2, opt⟩
    cases opt with
    | none => exact Or.inl rfl
    | some it =>
      right
      obtain ⟨hfresh, hmem, _, _⟩ := tacticsItem_some hr
      exact ⟨it, rfl, hfresh, hmem⟩

theorem stepT_emitted (part : String) {st : List String × List Item}
    {c : TCand} {it : Item} (h : (stepT part st c).2 = st.2 ++ [it]) :
    RecordOk "Tactics" part it ∧ (∃ q, pyFloat it.price_new = some q) := by
  simp only [stepT] at h
  split at h
  · exact absurd h (by simp)
  · next cc =>
    rcases hr : tacticsItem part st.1 cc with ⟨seen2, opt⟩
    rw [hr] at h
    cases opt with
    | none => exact absurd h (by simp)
    | some it2 =>
      simp only at h
      have hit : it2 = it := by
        have := List.append_cancel_left h
        simpa using this
      subst hit
      obtain ⟨_, _, hrec, hq⟩ := tacticsItem_some hr
      exact ⟨hrec, hq⟩

theorem tacticsParseCands_urls_nodup (part : String) (cands : List TCand) :
    ((tacticsParseCands part cands).map (fun i => i.url)).Nodup := by
  unfold tacticsParseCands
  exact foldl_urls_nodup (stepT_seenMono part) (stepT_shape part) cands ([], [])
    (by simp) (by simp)

theorem tacticsParseCands_records (part : String) (cands : List TCand) :
    ∀ r ∈ tacticsParseCands part cands,
      RecordOk "Tactics" part r ∧ (∃ q, pyFloat r.price_new = some q) := by
  unfold tacticsParseCands
  refine foldl_all_records _ (stepT_shape part) ?_ cands ([], []) (by simp)
  intro st c it h
  exact stepT_emitted part h

/-! ## Snapshot and diff-engine lemmas -/

theorem sfind_self_of_nodup {s : Snapshot} {k : String} {v : List Item}
    (hnd : (s.map Prod.fst).Nodup) (hmem : (k, v) ∈ s) : sfind s k = some v := by
  induction s with
  | nil => simp at hmem
  | cons p rest ih =>
    rcases List.mem_cons.mp hmem with rfl | hmem
    · simp [sfind, List.find?_cons]
    · have hk : p.1 ≠ k := by
        intro hk
        have : k ∈ rest.map Prod.fst := by
          exact List.mem_map.mpr ⟨(k, v), hmem, rfl⟩
        rw [List.map_cons, List.nodup_cons] at hnd
        exact hnd.1 (hk ▸ this)
      have := ih (by rw [List.map_cons, List.nodup_cons] at hnd; exact hnd.2) hmem
      simpa [sfind, List.find?_cons, hk] using this

theorem urlInsert_fresh {m : List (String × Item)} {i : Item}
    (h : ∀ p ∈ m, p.1 ≠ i.url) : urlInsert m i = m ++ [(i.url, i)] := by
  unfold urlInsert
  have hc : m.any (fun p => p.1 == i.url) = false := by
    rw [List.any_eq_false]
    intro p hp
    simpa using h p hp
  simp [hc]

theorem buildMap_aux {l : List Item} :
    ∀ m : List (String × Item), (∀ i ∈ l, ∀ p ∈ m, p.1 ≠ i.url) →
    ((l.map (fun i => i.url)).Nodup) →
    l.foldl urlInsert m = m ++ l.map (fun i => (i.url, i)) := by
  induction l with
  | nil => intro m _ _; simp
  | cons a l ih =>
    intro m hdisj hnd
    rw [List.foldl_cons, urlInsert_fresh (fun p hp => hdisj a (List.mem_cons_self a l) p hp)]
    rw [List.map_cons, List.nodup_cons] at hnd
    rw [ih (m := m ++ [(a.url, a)]) ?_ hnd.2]
    · simp
    · intro i hi p hp
      rcases List.mem_append.mp hp with hp | hp
      · exact hdisj i (List.mem_cons_of_mem a hi) p hp
      · rw [List.mem_singleton] at hp
        subst hp
        intro he
        simp only at he
        exact hnd.1 (by rw [he]; exact List.mem_map.mpr ⟨i, hi, rfl⟩)

theorem buildMap_eq {l : List Item} (hnd : (l.map (fun i => i.url)).Nodup) :
    buildMap l = l.map (fun i => (i.url, i)) := by
  unfold buildMap
  simpa using buildMap_aux [] (by simp) hnd

theorem mget_map_self {l : List Item} {pi : Item}
    (hnd : (l.map (fun i => i.url)).Nodup) (hmem : pi ∈ l) :
    mget (l.map (fun i => (i.url, i))) pi.url = some pi := by
  induction l with
  | nil => simp at hmem
  | cons a l ih =>
    rw [List.map_cons, List.nodup_cons] at hnd
    rcases List.mem_cons.mp hmem with rfl | hmem
    · simp [mget, List.find?_cons]
    · have hk : a.url ≠ pi.url := by
        intro hk
        exact hnd.1 (hk ▸ List.mem_map.mpr ⟨pi, hmem, rfl⟩)
      have := ih hnd.2 hmem
      simpa [mget, List.find?_cons, hk] using this

theorem mget_map_none {l : List Item} {u : String}
    (h : u ∉ l.map (fun i => i.url)) :
    mget (l.map (fun i => (i.url, i))) u = none := by
  unfold mget
  rw [Option.map_eq_none', List.find?_eq_none]
  intro p hp
  obtain ⟨i, hi, rfl⟩ := List.mem_map.mp hp
  simp only [beq_iff_eq]
  intro he
  exact h (he ▸ List.mem_map.mpr ⟨i, hi, rfl⟩)

theorem count_filterMap {α β : Type} [DecidableEq β] (f : α → Option β)
    (l : List α) (b : β) :
    (l.filterMap f).count b = l.countP (fun a => f a == some b) := by
  induction l with
  | nil => rfl
  | cons a l ih =>
    rw [List.filterMap_cons, List.countP_cons]
    rcases ha : f a with _ | c
    · simp only [ha]
      rw [ih]
      simp
    · simp only [ha]
      rw [List.count_cons, ih]
      by_cases hcb : c = b
      · subst hcb; simp
      · simp [hcb, Ne.symm hcb]

theorem eventsFor_aux_none {prev : Snapshot} {c : Snapshot} {k : String}
    (h : ∀ p ∈ c, p.1 ≠ k) : eventsFor (compare prev c) k = [] := by
  unfold eventsFor
  rw [show (List.find? (fun p => p.1 == k) (compare prev c)) = none from ?_]
  · rfl
  · rw [List.find?_eq_none]
    intro x hx
    obtain ⟨p, hp, hg⟩ := List.mem_filterMap.mp hx
    simp only [beq_iff_eq]
    split at hg
    · cases hg
    · rw [Option.some_inj] at hg
      subst hg
      exact h p hp

theorem eventsFor_compare {prev curr : Snapshot} {k : String} {items : List Item}
    (hnd : (curr.map Prod.fst).Nodup) (hmem : (k, items) ∈ curr) :
    eventsFor (compare prev curr) k = partDiffs (prevGet prev k) items := by
  induction curr with
  | nil => simp at hmem
  | cons p rest ih =>
    rw [List.map_cons, List.nodup_cons] at hnd
    rcases List.mem_cons.mp hmem with rfl | hmem
    · show eventsFor (compare prev ((k, items) :: rest)) k = _
      unfold compare
      rw [List.filterMap_cons]
      split
      · next hd =>
        simp only at hd
        have hdnil : partDiffs (prevGet prev k) items = [] := by
          by_contra hne
          rw [if_neg hne] at hd
          cases hd
        have hrest : ∀ p ∈ rest, p.1 ≠ k := by
          intro q hq he
          exact hnd.1 (he ▸ List.mem_map.mpr ⟨q, hq, rfl⟩)
        have hev := @eventsFor_aux_none prev _ _ hrest
        unfold compare at hev
        rw [hdnil]
        exact hev
      · next pr hd =>
        simp only at hd
        by_cases hne : partDiffs (prevGet prev k) items = []
        · rw [if_pos hne] at hd
          cases hd
        · rw [if_neg hne, Option.some_inj] at hd
          subst hd
          unfold eventsFor
          rw [List.find?_cons_of_pos _ (by simp)]
          rfl
    · have hk : p.1 ≠ k := by
        intro hk
        exact hnd.1 (hk ▸ List.mem_map.mpr ⟨(k, items), hmem, rfl⟩)
      have hrec := ih hnd.2 hmem
      unfold compare at hrec ⊢
      rw [List.filterMap_cons]
      split
      · exact hrec
      · next pr hd =>
        by_cases hne : partDiffs (prevGet prev p.1) p.2 = []
        · rw [if_pos hne] at hd
          cases hd
        · rw [if_neg hne, Option.some_inj] at hd
          subst hd
          unfold eventsFor
          rw [List.find?_cons_of_neg _ (by simpa using hk)]
          exact hrec

theorem count_eq_countP_beq {α : Type} [DecidableEq α] (l : List α) (a : α) :
    l.count a = l.countP (fun x => x == a) := rfl

theorem npEvents_count_new {prevItems currItems : List Item} {it : Item}
    (hndp : (prevItems.map (fun i => i.url)).Nodup)
    (hndc : (currItems.map (fun i => i.url)).Nodup)
    (hit : it ∈ currItems)
    (habs : it.url ∉ prevItems.map (fun i => i.url)) :
    (npEvents prevItems currItems).count (Diff.new it) = 1 := by
  unfold npEvents
  rw [count_filterMap, List.countP_congr (q := fun x => x == it)]
  · rw [← count_eq_countP_beq]
    exact List.count_eq_one_of_mem (List.Nodup.of_map _ hndc) hit
  · intro x hx
    simp only [beq_iff_eq, Option.some_inj]
    constructor
    · intro hfx
      split at hfx
      · rw [Option.some_inj] at hfx
        cases hfx
        rfl
      · split at hfx
        · rw [Option.some_inj] at hfx
          cases hfx
        · cases hfx
    · rintro rfl
      rw [buildMap_eq hndp, mget_map_none habs]

theorem npEvents_count_price {prevItems currItems : List Item} {it pi : Item}
    (hndp : (prevItems.map (fun i => i.url)).Nodup)
    (hndc : (currItems.map (fun i => i.url)).Nodup)
    (hpi : pi ∈ prevItems) (hurl : pi.url = it.url) (hit : it ∈ currItems)
    (hdiff : it.price_new ≠ pi.price_new) :
    (npEvents prevItems currItems).count
      (Diff.price_change it.url pi.price_new it.price_new it.name) = 1 := by
  have hmg : mget (buildMap prevItems) it.url = some pi := by
    rw [buildMap_eq hndp, ← hurl]
    exact mget_map_self hndp hpi
  unfold npEvents
  rw [count_filterMap, List.countP_congr (q := fun x => x == it)]
  · rw [← count_eq_countP_beq]
    exact List.count_eq_one_of_mem (List.Nodup.of_map _ hndc) hit
  · intro x hx
    simp only [beq_iff_eq, Option.some_inj]
    constructor
    · intro hfx
      split at hfx
      · rw [Option.some_inj] at hfx
        cases hfx
      · next px hmgx =>
        split at hfx
        · rw [Option.some_inj] at hfx
          rw [Diff.price_change.injEq] at hfx
          obtain ⟨hxu, _, _, _⟩ := hfx
          exact List.inj_on_of_nodup_map hndc hx hit hxu
        · cases hfx
    · rintro rfl
      simp [hmg, hdiff]

theorem npEvents_count_removed (prevItems currItems : List Item) (pi : Item) :
    (npEvents prevItems currItems).count (Diff.removed pi) = 0 := by
  unfold npEvents
  rw [count_filterMap, List.countP_eq_zero]
  intro x hx
  simp only [beq_iff_eq, Option.some_inj]
  intro hfx
  split at hfx
  · rw [Option.some_inj] at hfx
    cases hfx
  · split at hfx
    · rw [Option.some_inj] at hfx
      cases hfx
    · cases hfx

theorem removedEvents_count_other {prevItems currItems : List Item} {e : Diff}
    (he : ∀ i, e ≠ Diff.removed i) :
    (removedEvents prevItems currItems).count e = 0 := by
  unfold removedEvents
  rw [count_filterMap, List.countP_eq_zero]
  intro p hp
  simp only [beq_iff_eq]
  intro hfp
  split at hfp
  · cases hfp
  · split at hfp
    · rw [Option.some_inj] at hfp
      exact he p.2 hfp.symm
    · cases hfp

theorem removedEvents_count {prevItems currItems : List Item} {pi : Item}
    (hndp : (prevItems.map (fun i => i.url)).Nodup)
    (hpi : pi ∈ prevItems)
    (habs : pi.url ∉ currItems.map (fun i => i.url)) :
    (removedEvents prevItems currItems).count (Diff.removed pi) =
      (if pi.part ∈ validParts then 1 else 0) := by
  unfold removedEvents
  rw [buildMap_eq hndp, count_filterMap, List.countP_map]
  by_cases hv : pi.part ∈ validParts
  · rw [if_pos hv]
    rw [List.countP_congr (q := fun x => x == pi)]
    · rw [← count_eq_countP_beq]
      exact List.count_eq_one_of_mem (List.Nodup.of_map _ hndp) hpi
    · intro i hi
      simp only [Function.comp_apply, beq_iff_eq, Option.some_inj]
      constructor
      · intro hfi
        split at hfi
        · cases hfi
        · split at hfi
          · rw [Option.some_inj] at hfi
            cases hfi
            rfl
          · cases hfi
      · rintro rfl
        rw [if_neg habs, if_pos hv]
  · rw [if_neg hv]
    rw [List.countP_eq_zero]
    intro i hi
    simp only [Function.comp_apply, beq_iff_eq, Option.some_inj]
    intro hfi
    split at hfi
    · cases hfi
    · split at hfi
      · rw [Option.some_inj] at hfi
        cases hfi
        exact hv (by assumption)
      · cases hfi

/-! ## Lemmas about the orchestration loop -/

theorem sfind_cons (p : String × List Item) (m : Snapshot) (k : String) :
    sfind (p :: m) k = if p.1 = k then some p.2 else sfind m k := by
  unfold sfind
  by_cases hp : p.1 = k
  · rw [List.find?_cons_of_pos _ (by simpa using hp), if_pos hp]
    rfl
  · rw [List.find?_cons_of_neg _ (by simpa using hp), if_neg hp]

theorem dictInsert_pos {m : Snapshot} {k : String} (v : List Item)
    (h : m.any (fun p => p.1 == k) = true) :
    dictInsert m k v = m.map (fun p => if p.1 == k then (k, v) else p) := by
  unfold dictInsert
  rw [if_pos h]

theorem dictInsert_neg {m : Snapshot} {k : String} (v : List Item)
    (h : m.any (fun p => p.1 == k) = false) :
    dictInsert m k v = m ++ [(k, v)] := by
  unfold dictInsert
  rw [h]
  simp

theorem sfind_map_overwrite {m : Snapshot} {k : String} {v : List Item}
    (ha : m.any (fun p => p.1 == k) = true) :
    sfind (m.map (fun p => if p.1 == k then (k, v) else p)) k = some v := by
  induction m with
  | nil => simp at ha
  | cons p m ih =>
    rw [List.map_cons, sfind_cons]
    by_cases hp : p.1 = k
    · have hh : (if (p.1 == k) = true then (k, v) else p) = (k, v) := by
        rw [if_pos (by simpa using hp)]
      rw [hh]
      simp
    · have hh : (if (p.1 == k) = true then (k, v) else p) = p := by
        rw [if_neg (by simpa using hp)]
      rw [hh, if_neg hp]
      apply ih
      rw [List.any_cons] at ha
      simpa [hp] using ha

theorem sfind_map_overwrite_other {m : Snapshot} {k k2 : String} {v : List Item}
    (hk : k2 ≠ k) :
    sfind (m.map (fun p => if p.1 == k then (k, v) else p)) k2 = sfind m k2 := by
  induction m with
  | nil => rfl
  | cons p m ih =>
    rw [List.map_cons, sfind_cons, sfind_cons]
    by_cases hp : p.1 = k
    · have hh : (if (p.1 == k) = true then (k, v) else p) = (k, v) := by
        rw [if_pos (by simpa using hp)]
      rw [hh]
      have h1 : ¬(((k, v) : String × List Item).1 = k2) := by
        simpa using Ne.symm hk
      rw [if_neg h1, if_neg (by rw [hp]; exact Ne.symm hk)]
      exact ih
    · have hh : (if (p.1 == k) = true then (k, v) else p) = p := by
        rw [if_neg (by simpa using hp)]
      rw [hh]
      by_cases hp2 : p.1 = k2
      · rw [if_pos hp2, if_pos hp2]
      · rw [if_neg hp2, if_neg hp2]
        exact ih

theorem sfind_dictInsert_self (m : Snapshot) (k : String) (v : List Item) :
    sfind (dictInsert m k v) k = some v := by
  by_cases ha : m.any (fun p => p.1 == k) = true
  · rw [dictInsert_pos v ha]
    exact sfind_map_overwrite ha
  · have ha2 : m.any (fun p => p.1 == k) = false := by
      cases hx : m.any (fun p => p.1 == k)
      · rfl
      · exact absurd hx ha
    rw [dictInsert_neg v ha2]
    unfold sfind
    rw [List.find?_append]
    have h1 : List.find? (fun p => p.1 == k) m = none := by
      rw [List.find?_eq_none]
      intro p hp hpe
      rw [List.any_eq_true] at ha
      exact ha ⟨p, hp, hpe⟩
    rw [h1]
    simp

theorem sfind_dictInsert_other (m : Snapshot) (k k2 : String) (v : List Item)
    (hk : k2 ≠ k) : sfind (dictInsert m k v) k2 = sfind m k2 := by
  by_cases ha : m.any (fun p => p.1 == k) = true
  · rw [dictInsert_pos v ha]
    exact sfind_map_overwrite_other hk
  · have ha2 : m.any (fun p => p.1 == k) = false := by
      cases hx : m.any (fun p => p.1 == k)
      · rfl
      · exact absurd hx ha
    rw [dictInsert_neg v ha2]
    unfold sfind
    rw [List.find?_append]
    have h2 : List.find? (fun p => p.1 == k2) [(k, v)] = none := by
      simp [Ne.symm hk]
    rw [h2, Option.or_none]

theorem runAccumulate_aux (fetchResult : ScraperCfg → Option Html)
    (cfgs : List ScraperCfg) (k : String)
    (h : ∀ cfg ∈ cfgs, keyOf cfg ≠ k) :
    ∀ m : Snapshot,
      sfind (cfgs.foldl (fun acc cfg =>
        dictInsert acc (keyOf cfg) (parseDispatch cfg (fetchResult cfg))) m) k
        = sfind m k := by
  induction cfgs with
  | nil => intro m; rfl
  | cons cfg cfgs ih =>
    intro m
    rw [List.foldl_cons]
    rw [ih (fun c hc => h c (List.mem_cons_of_mem cfg hc))]
    exact sfind_dictInsert_other _ _ _ _ (fun he => h cfg (List.mem_cons_self _ _) he.symm)

theorem runAccumulate_find (fetchResult : ScraperCfg → Option Html)
    (cfgs : List ScraperCfg) (hnd : (cfgs.map keyOf).Nodup) :
    ∀ cfg ∈ cfgs,
      sfind (runAccumulate fetchResult cfgs) (keyOf cfg)
        = some (parseDispatch cfg (fetchResult cfg)) := by
  intro cfg hcfg
  unfold runAccumulate
  have haux : ∀ (cfgs : List ScraperCfg) (m : Snapshot),
      ((cfgs.map keyOf).Nodup) → cfg ∈ cfgs →
      sfind (cfgs.foldl (fun acc c =>
        dictInsert acc (keyOf c) (parseDispatch c (fetchResult c))) m) (keyOf cfg)
        = some (parseDispatch cfg (fetchResult cfg)) := by
    intro cfgs
    induction cfgs with
    | nil => intro m _ hmem; simp at hmem
    | cons c cfgs ih =>
      intro m hnd2 hmem
      rw [List.map_cons, List.nodup_cons] at hnd2
      rw [List.foldl_cons]
      rcases List.mem_cons.mp hmem with rfl | hmem
      · rw [runAccumulate_aux fetchResult cfgs (keyOf cfg) ?_]
        · exact sfind_dictInsert_self _ _ _
        · intro c2 hc2 he
          exact hnd2.1 (he ▸ List.mem_map.mpr ⟨c2, hc2, rfl⟩)
      · exact ih _ hnd2.2 hmem
  exact haux cfgs [] hnd hcfg

theorem runAccumulate_entries (fetchResult : ScraperCfg → Option Html)
    (cfgs : List ScraperCfg) {k : String} {v : List Item}
    (h : (k, v) ∈ runAccumulate fetchResult cfgs) :
    ∃ cfg ∈ cfgs, k = keyOf cfg ∧ v = parseDispatch cfg (fetchResult cfg) := by
  unfold runAccumulate at h
  have haux : ∀ (cfgs : List ScraperCfg) (m : Snapshot),
      (k, v) ∈ cfgs.foldl (fun acc c =>
        dictInsert acc (keyOf c) (parseDispatch c (fetchResult c))) m →
      (k, v) ∈ m ∨ ∃ cfg ∈ cfgs, k = keyOf cfg ∧ v = parseDispatch cfg (fetchResult cfg) := by
    intro cfgs
    induction cfgs with
    | nil => intro m hm; exact Or.inl hm
    | cons c cfgs ih =>
      intro m hm
      rw [List.foldl_cons] at hm
      rcases ih _ hm with hm2 | ⟨cfg, hcfg, hk, hv⟩
      · unfold dictInsert at hm2
        split at hm2
        · obtain ⟨p, hp, hpe⟩ := List.mem_map.mp hm2
          split at hpe
          · rw [Prod.mk.injEq] at hpe
            exact Or.inr ⟨c, List.mem_cons_self _ _, hpe.1.symm, hpe.2.symm⟩
          · exact Or.inl (hpe ▸ hp)
        · rcases List.mem_append.mp hm2 with hm3 | hm3
          · exact Or.inl hm3
          · rw [List.mem_singleton] at hm3
            rw [Prod.mk.injEq] at hm3
            exact Or.inr ⟨c, List.mem_cons_self _ _, hm3.1, hm3.2⟩
      · exact Or.inr ⟨cfg, List.mem_cons_of_mem c hcfg, hk, hv⟩
  rcases haux cfgs [] h with hm | hres
  · simp at hm
  · exact hres

/-! ## Parse-level record facts and the spec-side discount condition -/

theorem zumiezParse_records (part : String) (h : Option Html) :
    ∀ r ∈ zumiezParse part h, RecordOk "Zumiez" part r := by
  cases h with
  | none => intro r hr; simp [zumiezParse] at hr
  | some d => exact zumiezParseCands_records part d.zumiezCards

theorem swParse_records (part : String) (h : Option Html) :
    ∀ r ∈ swParse part h,
      RecordOk "SkateWarehouse" part r ∧ (∃ q, pyFloat r.price_new = some q) ∧
      (part = "Trucks" → swTruckBrandOk r.name = true) := by
  cases h with
  | none => intro r hr; simp [swParse] at hr
  | some d => exact swParseCands_records part d.swAnchors

theorem ccsParse_records (part : String) (h : Option Html) :
    ∀ r ∈ ccsParse part h,
      RecordOk "CCS" part r ∧ (∃ q, pyFloat r.price_new = some q) := by
  cases h with
  | none => intro r hr; simp [ccsParse] at hr
  | some d =>
    exact ccsParseCands_records part
      (if d.ccsPrimary.isEmpty then d.ccsFallback else d.ccsPrimary)

theorem tacticsParse_records (part : String) (h : Option Html) :
    ∀ r ∈ tacticsParse part h,
      RecordOk "Tactics" part r ∧ (∃ q, pyFloat r.price_new = some q) := by
  cases h with
  | none => intro r hr; simp [tacticsParse] at hr
  | some d => exact tacticsParseCands_records part d.tacticsCards

/-- The deck-discount condition in the spec's own terms: both prices
convert as numbers, the original price is positive, and
`(priceOld - priceNew) / priceOld * 100` rounded to the nearest integer
is at least 10. -/
def DeckSpec (price_new : String) (price_old : Option String) : Prop :=
  ∃ (n o : ℚ) (s : String),
    pyFloat price_new = some n ∧ price_old = some s ∧ pyFloat s = some o ∧
    0 < o ∧ 10 ≤ roundHalfEven ((o - n) / o * 100)

theorem pctOf_eq {n o : ℚ} (ho : 0 < o) : pctOf n o = (o - n) / o * 100 := by
  have hnum : 0 < o.num := Rat.num_pos.mpr ho
  have habs : (o.num.natAbs : ℤ) = o.num := Int.natAbs_of_nonneg (le_of_lt hnum)
  have habsQ : ((o.num.natAbs : ℕ) : ℚ) = (o.num : ℚ) := by
    rw [Int.cast_natAbs]
    exact congrArg (fun z : ℤ => (z : ℚ)) (abs_of_nonneg (le_of_lt hnum))
  have hden_n : (n.den : ℚ) ≠ 0 := Nat.cast_ne_zero.mpr n.den_nz
  have hden_o : (o.den : ℚ) ≠ 0 := Nat.cast_ne_zero.mpr o.den_nz
  have hn : (n.num : ℚ) = n * n.den := (div_eq_iff hden_n).mp (Rat.num_div_den n)
  have hoe : (o.num : ℚ) = o * o.den := (div_eq_iff hden_o).mp (Rat.num_div_den o)
  have hnum2 : (o.num : ℚ) ≠ 0 := Int.cast_ne_zero.mpr (ne_of_gt hnum)
  have honz : o ≠ 0 := ne_of_gt ho
  unfold pctOf
  rw [Rat.mkRat_eq_div]
  push_cast [habsQ]
  field_simp
  rw [hn, hoe]
  ring

theorem deckKeep_iff {pn : String} {po : Option String} :
    deckKeep pn po = true ↔ DeckSpec pn po := by
  constructor
  · intro h
    unfold deckKeep at h
    split at h
    · cases h
    · next v hv =>
      unfold calculate_percent_off at hv
      split at hv
      · cases hv
      · next s =>
        split at hv
        · next n o hn ho =>
          split at hv
          · cases hv
          · next hole =>
            rw [Option.some_inj] at hv
            have hopos : 0 < o := lt_of_not_le hole
            refine ⟨n, o, s, hn, rfl, ho, hopos, ?_⟩
            rw [← pctOf_eq hopos, hv]
            simpa using h
        · cases hv
  · rintro ⟨n, o, s, hn, rfl, ho, hopos, hge⟩
    unfold deckKeep calculate_percent_off
    simp only [hn, ho]
    rw [if_neg (not_le.mpr hopos)]
    rw [pctOf_eq hopos]
    simpa using hge

theorem parseDispatch_records (cfg : ScraperCfg) (h : Option Html) :
    ∀ r ∈ parseDispatch cfg h,
      r.availability = "Check store" ∧ r.part = cfg.part ∧
      r.store = storeName cfg.variant := by
  intro r hr
  cases hv : cfg.variant <;> rw [parseDispatch, hv] at hr
  · obtain ⟨h1, h2, h3, _⟩ := zumiezParse_records cfg.part h r hr
    exact ⟨h1, h2, h3⟩
  · obtain ⟨⟨h1, h2, h3, _⟩, _, _⟩ := swParse_records cfg.part h r hr
    exact ⟨h1, h2, h3⟩
  · obtain ⟨⟨h1, h2, h3, _⟩, _⟩ := ccsParse_records cfg.part h r hr
    exact ⟨h1, h2, h3⟩
  · obtain ⟨⟨h1, h2, h3, _⟩, _⟩ := tacticsParse_records cfg.part h r hr
    exact ⟨h1, h2, h3⟩

theorem mainScrapers_names :
    ∀ cfg ∈ mainScrapers, cfg.name = storeName cfg.variant := by decide

theorem partDiffs_self {l : List Item} (hnd : (l.map (fun i => i.url)).Nodup) :
    partDiffs l l = [] := by
  unfold partDiffs npEvents removedEvents
  rw [List.append_eq_nil]
  constructor
  · rw [List.filterMap_eq_nil_iff]
    intro it hit
    rw [buildMap_eq hnd, mget_map_self hnd hit]
    simp
  · rw [List.filterMap_eq_nil_iff]
    intro p hp
    rw [buildMap_eq hnd] at hp
    obtain ⟨i, hi, rfl⟩ := List.mem_map.mp hp
    rw [if_pos]
    exact List.mem_map.mpr ⟨i, hi, rfl⟩

theorem parseDispatch_none (cfg : ScraperCfg) : parseDispatch cfg none = [] := by
  cases hv : cfg.variant <;> rw [parseDispatch, hv] <;> rfl

/-! ## The claims -/

/-- A snapshot whose single partition holds two records with the same URL
but different current prices. -/
def c1S : Snapshot :=
  [("StoreA_Decks",
    [⟨"Deck A", "https://example/d1", "40.00", some "80.00", "Check store", "Decks", "StoreA"⟩,
     ⟨"Deck A", "https://example/d1", "35.00", some "80.00", "Check store", "Decks", "StoreA"⟩])]

/-- C1 as stated is false: `compare(S, S)` is not empty for every snapshot
`S`.  When one partition holds two records with the same URL and different
`price_new`, the URL lookup keeps only the last record, and the first one
compares against it as a price change. -/
theorem c1_counterexample : compare c1S c1S ≠ [] := by decide

/-- A well-formed snapshot: distinct partition keys, distinct URLs per
partition. -/
def c1W : Snapshot :=
  [("StoreA_Decks",
    [⟨"Deck A", "https://example/d1", "40.00", some "80.00", "Check store", "Decks", "StoreA"⟩]),
   ("StoreA_Wheels",
    [⟨"Bones Wheels", "https://example/w1", "20.00", none, "Check store", "Wheels", "StoreA"⟩,
     ⟨"Spitfire Wheels", "https://example/w2", "25.00", none, "Check store", "Wheels", "StoreA"⟩])]

/-- C1 (amended): for every snapshot whose partition keys are distinct and
in which no two records of one partition share a URL — the shape every
snapshot produced by the pipeline has, by the parse dedup invariant —
`compare(S, S)` returns the empty change mapping. -/
theorem compare_self_empty (S : Snapshot)
    (hkeys : (S.map Prod.fst).Nodup)
    (hurls : ∀ p ∈ S, ((p.2.map (fun i => i.url)).Nodup)) :
    compare S S = [] := by
  unfold compare
  rw [List.filterMap_eq_nil_iff]
  intro p hp
  rw [if_pos]
  have hpg : prevGet S p.1 = p.2 := by
    unfold prevGet
    rw [sfind_self_of_nodup hkeys (by exact hp)]
    rfl
  rw [hpg]
  exact partDiffs_self (hurls p hp)

/-- Witness for the amended C1 at a concrete well-formed snapshot. -/
theorem compare_self_empty_witness : compare c1W c1W = [] :=
  compare_self_empty c1W (by decide) (by decide)

/-- C2: per partition key of the current snapshot, a current item with a
URL absent from that key's previous items yields exactly one `new` event,
and a current item whose URL is held by a previous item with a different
`price_new` string yields exactly one `price_change` event carrying the
previous price as `old` and the current price as `new`, verbatim.  The
snapshots are assumed well formed (distinct keys, distinct URLs per
partition — the documented snapshot invariant), which is what makes
"exactly one" and "the previous price" well defined. -/
theorem compare_new_and_price_events
    (prev curr : Snapshot) (k : String) (items : List Item) (it : Item)
    (hndk : (curr.map Prod.fst).Nodup)
    (hk : (k, items) ∈ curr)
    (hndp : ((prevGet prev k).map (fun i => i.url)).Nodup)
    (hndc : (items.map (fun i => i.url)).Nodup)
    (hit : it ∈ items) :
    (it.url ∉ (prevGet prev k).map (fun i => i.url) →
      (eventsFor (compare prev curr) k).count (Diff.new it) = 1) ∧
    (∀ pi ∈ prevGet prev k, pi.url = it.url → pi.price_new ≠ it.price_new →
      (eventsFor (compare prev curr) k).count
        (Diff.price_change it.url pi.price_new it.price_new it.name) = 1) := by
  rw [eventsFor_compare hndk hk]
  constructor
  · intro habs
    unfold partDiffs
    rw [List.count_append, npEvents_count_new hndp hndc hit habs,
      removedEvents_count_other (fun i => by simp)]
  · intro pi hpi hurl hdiff
    unfold partDiffs
    rw [List.count_append, npEvents_count_price hndp hndc hpi hurl hit
      (fun he => hdiff he.symm),
      removedEvents_count_other (fun i => by simp)]

/-- The previous snapshot of the C2/C3 witnesses. -/
def c2prev : Snapshot :=
  [("StoreA_Decks",
    [⟨"Deck A", "/d1", "40.00", some "80.00", "Check store", "Decks", "StoreA"⟩])]

/-- The current items of the C2 witness: `/d1` re-listed at a lower price
and a brand-new `/d2`. -/
def c2items : List Item :=
  [⟨"Deck A", "/d1", "35.00", some "80.00", "Check store", "Decks", "StoreA"⟩,
   ⟨"Deck B", "/d2", "50.00", some "99.00", "Check store", "Decks", "StoreA"⟩]

/-- The current snapshot of the C2 witness. -/
def c2curr : Snapshot := [("StoreA_Decks", c2items)]

/-- Witness for C2: the concrete new and price-change events each occur
exactly once. -/
theorem compare_new_and_price_events_witness :
    (eventsFor (compare c2prev c2curr) "StoreA_Decks").count
      (Diff.new ⟨"Deck B", "/d2", "50.00", some "99.00", "Check store", "Decks", "StoreA"⟩)
      = 1 ∧
    (eventsFor (compare c2prev c2curr) "StoreA_Decks").count
      (Diff.price_change "/d1" "40.00" "35.00" "Deck A") = 1 := by
  constructor
  · exact (compare_new_and_price_events c2prev c2curr "StoreA_Decks" c2items
      ⟨"Deck B", "/d2", "50.00", some "99.00", "Check store", "Decks", "StoreA"⟩
      (by decide) (by decide) (by decide) (by decide) (by decide)).1 (by decide)
  · exact (compare_new_and_price_events c2prev c2curr "StoreA_Decks" c2items
      ⟨"Deck A", "/d1", "35.00", some "80.00", "Check store", "Decks", "StoreA"⟩
      (by decide) (by decide) (by decide) (by decide) (by decide)).2
      ⟨"Deck A", "/d1", "40.00", some "80.00", "Check store", "Decks", "StoreA"⟩
      (by decide) (by decide) (by decide)

/-- C3: per partition key of the current snapshot, a previous item whose
URL is absent from the current item set yields exactly one `removed`
event when its stored category is one of Decks, Wheels, Trucks, Bearings,
and no `removed` event otherwise.  Snapshots are assumed well formed as
in C2. -/
theorem compare_removed_events
    (prev curr : Snapshot) (k : String) (items : List Item) (pi : Item)
    (hndk : (curr.map Prod.fst).Nodup)
    (hk : (k, items) ∈ curr)
    (hndp : ((prevGet prev k).map (fun i => i.url)).Nodup)
    (hpi : pi ∈ prevGet prev k)
    (habs : pi.url ∉ items.map (fun i => i.url)) :
    (eventsFor (compare prev curr) k).count (Diff.removed pi)
      = (if pi.part ∈ validParts then 1 else 0) := by
  rw [eventsFor_compare hndk hk]
  unfold partDiffs
  rw [List.count_append, npEvents_count_removed,
    removedEvents_count hndp hpi habs, Nat.zero_add]

/-- The previous snapshot of the C3 witness: one allow-listed Decks item
and one out-of-scope GiftCards item, both about to vanish. -/
def c3prev : Snapshot :=
  [("StoreA_Decks",
    [⟨"Deck A", "/d1", "40.00", some "80.00", "Check store", "Decks", "StoreA"⟩,
     ⟨"Gift Card", "/g1", "10.00", none, "Check store", "GiftCards", "StoreA"⟩])]

/-- The current snapshot of the C3 witness: the partition is present but
empty. -/
def c3curr : Snapshot := [("StoreA_Decks", [])]

/-- Witness for C3: the vanished Decks item is reported removed exactly
once; the vanished GiftCards item is never reported. -/
theorem compare_removed_events_witness :
    (eventsFor (compare c3prev c3curr) "StoreA_Decks").count
      (Diff.removed ⟨"Deck A", "/d1", "40.00", some "80.00", "Check store", "Decks", "StoreA"⟩)
      = 1 ∧
    (eventsFor (compare c3prev c3curr) "StoreA_Decks").count
      (Diff.removed ⟨"Gift Card", "/g1", "10.00", none, "Check store", "GiftCards", "StoreA"⟩)
      = 0 := by
  constructor
  · have h := compare_removed_events c3prev c3curr "StoreA_Decks" []
      ⟨"Deck A", "/d1", "40.00", some "80.00", "Check store", "Decks", "StoreA"⟩
      (by decide) (by decide) (by decide) (by decide) (by decide)
    rw [if_pos (by decide)] at h
    exact h
  · have h := compare_removed_events c3prev c3curr "StoreA_Decks" []
      ⟨"Gift Card", "/g1", "10.00", none, "Check store", "GiftCards", "StoreA"⟩
      (by decide) (by decide) (by decide) (by decide) (by decide)
    rw [if_neg (by decide)] at h
    exact h

/-- C4: every variant of `parse` returns a list in which no two records
share a URL, for every markup input and category — the `seen`-set dedup. -/
theorem parse_urls_nodup :
    (∀ part h, ((zumiezParse part h).map (fun i => i.url)).Nodup) ∧
    (∀ part h, ((swParse part h).map (fun i => i.url)).Nodup) ∧
    (∀ part h, ((ccsParse part h).map (fun i => i.url)).Nodup) ∧
    (∀ part h, ((tacticsParse part h).map (fun i => i.url)).Nodup) := by
  refine ⟨fun part h => ?_, fun part h => ?_, fun part h => ?_, fun part h => ?_⟩
  · cases h with
    | none => simp [zumiezParse]
    | some d => exact zumiezParseCands_urls_nodup part d.zumiezCards
  · cases h with
    | none => simp [swParse]
    | some d => exact swParseCands_urls_nodup part d.swAnchors
  · cases h with
    | none => simp [ccsParse]
    | some d =>
      exact ccsParseCands_urls_nodup part
        (if d.ccsPrimary.isEmpty then d.ccsFallback else d.ccsPrimary)
  · cases h with
    | none => simp [tacticsParse]
    | some d => exact tacticsParseCands_urls_nodup part d.tacticsCards

/-- C5: a record with category Decks appears in a parse result (of any
variant) only when both its sale price and its original price convert as
numbers, the original price is positive, and the discount
`(priceOld - priceNew) / priceOld * 100`, rounded to the nearest integer,
is at least 10. -/
theorem deck_records_discount :
    (∀ part h r, r ∈ zumiezParse part h → r.part = "Decks" →
      DeckSpec r.price_new r.price_old) ∧
    (∀ part h r, r ∈ swParse part h → r.part = "Decks" →
      DeckSpec r.price_new r.price_old) ∧
    (∀ part h r, r ∈ ccsParse part h → r.part = "Decks" →
      DeckSpec r.price_new r.price_old) ∧
    (∀ part h r, r ∈ tacticsParse part h → r.part = "Decks" →
      DeckSpec r.price_new r.price_old) := by
  refine ⟨fun part h r hr hd => ?_, fun part h r hr hd => ?_,
    fun part h r hr hd => ?_, fun part h r hr hd => ?_⟩
  · obtain ⟨_, hpart, _, _, _, hdk⟩ := zumiezParse_records part h r hr
    exact deckKeep_iff.mp (hdk (hpart ▸ hd))
  · obtain ⟨⟨_, hpart, _, _, _, hdk⟩, _, _⟩ := swParse_records part h r hr
    exact deckKeep_iff.mp (hdk (hpart ▸ hd))
  · obtain ⟨⟨_, hpart, _, _, _, hdk⟩, _⟩ := ccsParse_records part h r hr
    exact deckKeep_iff.mp (hdk (hpart ▸ hd))
  · obtain ⟨⟨_, hpart, _, _, _, hdk⟩, _⟩ := tacticsParse_records part h r hr
    exact deckKeep_iff.mp (hdk (hpart ▸ hd))

/-- A Zumiez page with one deck card at exactly 10% off. -/
def c5Html : Html :=
  ⟨[ZCand.card ⟨some ⟨"/d2", none⟩, some "Deck B", some "$72.00", some "$80.00"⟩],
    [], [], [], []⟩

/-- Witness for C5: the concrete surfaced deck satisfies the discount
condition. -/
theorem deck_records_discount_witness : DeckSpec "72.00" (some "80.00") :=
  deck_records_discount.1 "Decks" (some c5Html)
    ⟨"Deck B", "https://www.zumiez.com/d2", "72.00", some "80.00", "Check store", "Decks", "Zumiez"⟩
    (by decide) rfl

/-- A Zumiez trucks page whose single product name matches no brand
allow-list of the program. -/
def c6Html : Html :=
  ⟨[ZCand.card ⟨some ⟨"/t1", none⟩, some "Plain", some "$19.99", none⟩],
    [], [], [], []⟩

/-- The record Zumiez emits for that page. -/
def c6rec : Item :=
  ⟨"Plain", "https://www.zumiez.com/t1", "19.99", none, "Check store", "Trucks", "Zumiez"⟩

/-- C6 as stated is false: `ZumiezScraper.parse` emits Trucks records with
no brand filter at all, so a Trucks record whose name contains no token of
any allow-list in the program is returned. -/
theorem c6_counterexample :
    c6rec ∈ zumiezParse "Trucks" (some c6Html) ∧ c6rec.part = "Trucks" ∧
    (∀ b ∈ wheelBrands ++ swTruckBrands, hasSub b c6rec.name = false) := by
  decide

/-- C6 (amended): Wheels records from every variant carry a name matching
the shared brand allow-list; among Trucks, only SkateWarehouse applies a
brand allow-list (its own) — the other variants emit Trucks records with
no brand filter. -/
theorem brand_allowlist_filters :
    (∀ part h r, r ∈ zumiezParse part h → r.part = "Wheels" →
      wheelBrandOk r.name = true) ∧
    (∀ part h r, r ∈ swParse part h → r.part = "Wheels" →
      wheelBrandOk r.name = true) ∧
    (∀ part h r, r ∈ ccsParse part h → r.part = "Wheels" →
      wheelBrandOk r.name = true) ∧
    (∀ part h r, r ∈ tacticsParse part h → r.part = "Wheels" →
      wheelBrandOk r.name = true) ∧
    (∀ part h r, r ∈ swParse part h → r.part = "Trucks" →
      swTruckBrandOk r.name = true) := by
  refine ⟨fun part h r hr hw => ?_, fun part h r hr hw => ?_,
    fun part h r hr hw => ?_, fun part h r hr hw => ?_, fun part h r hr ht => ?_⟩
  · obtain ⟨_, hpart, _, _, hwh, _⟩ := zumiezParse_records part h r hr
    exact hwh (hpart ▸ hw)
  · obtain ⟨⟨_, hpart, _, _, hwh, _⟩, _, _⟩ := swParse_records part h r hr
    exact hwh (hpart ▸ hw)
  · obtain ⟨⟨_, hpart, _, _, hwh, _⟩, _⟩ := ccsParse_records part h r hr
    exact hwh (hpart ▸ hw)
  · obtain ⟨⟨_, hpart, _, _, hwh, _⟩, _⟩ := tacticsParse_records part h r hr
    exact hwh (hpart ▸ hw)
  · obtain ⟨_, _, htr⟩ := swParse_records part h r hr
    obtain ⟨_, hpart, _, _, _, _⟩ := (swParse_records part h r hr).1
    exact htr (hpart ▸ ht)

/-- A page with one allow-listed Zumiez wheels card and one allow-listed
SkateWarehouse trucks anchor. -/
def c6wHtml : Html :=
  ⟨[ZCand.card ⟨some ⟨"/wheel1", none⟩, some "Bones STF 54mm", some "$29.99", none⟩],
    [⟨"Independent Stage 11 Truck $44.99", "/truck/indy.html"⟩], [], [], []⟩

/-- Witness for the amended C6 at concrete records. -/
theorem brand_allowlist_filters_witness :
    wheelBrandOk "Bones STF 54mm" = true ∧
    swTruckBrandOk "Independent Stage 11 Truck" = true := by
  constructor
  · exact brand_allowlist_filters.1 "Wheels" (some c6wHtml)
      ⟨"Bones STF 54mm", "https://www.zumiez.com/wheel1", "29.99", none,
        "Check store", "Wheels", "Zumiez"⟩ (by decide) rfl
  · exact brand_allowlist_filters.2.2.2.2 "Trucks" (some c6wHtml)
      ⟨"Independent Stage 11 Truck",
        "https://www.skatewarehouse.com/truck/indy.html", "44.99", none,
        "Check store", "Trucks", "SkateWarehouse"⟩ (by decide) rfl

/-- A Zumiez wheels page whose price element text is not numeric. -/
def c7Html : Html :=
  ⟨[ZCand.card ⟨some ⟨"/x", none⟩, some "Bones W", some "ABC", none⟩],
    [], [], [], []⟩

/-- The record Zumiez emits for that page. -/
def c7rec : Item :=
  ⟨"Bones W", "https://www.zumiez.com/x", "ABC", none, "Check store", "Wheels", "Zumiez"⟩

/-- C7 as stated is false: Zumiez non-Decks records carry the raw price
element text (dollar signs removed) with no numeric validation, so a
returned record can have a `price_new` that `float()` cannot parse. -/
theorem c7_counterexample :
    c7rec ∈ zumiezParse "Wheels" (some c7Html) ∧ c7rec.price_new ≠ "" ∧
    pyFloat c7rec.price_new = none := by
  decide

/-- C7 (amended): every record's `price_new` is present (nonempty); it is
numeric-parseable for the SkateWarehouse, CCS and Tactics variants, whose
prices come from numeric regex captures, and for Zumiez only the Decks
category guarantees parseability (via the discount gate); `price_old` may
be absent. -/
theorem price_new_presence :
    (∀ part h r, r ∈ zumiezParse part h →
      r.price_new ≠ "" ∧ (r.part = "Decks" → ∃ q, pyFloat r.price_new = some q)) ∧
    (∀ part h r, r ∈ swParse part h →
      r.price_new ≠ "" ∧ ∃ q, pyFloat r.price_new = some q) ∧
    (∀ part h r, r ∈ ccsParse part h →
      r.price_new ≠ "" ∧ ∃ q, pyFloat r.price_new = some q) ∧
    (∀ part h r, r ∈ tacticsParse part h →
      r.price_new ≠ "" ∧ ∃ q, pyFloat r.price_new = some q) ∧
    (∃ h r, r ∈ swParse "Trucks" h ∧ r.price_old = none) := by
  refine ⟨fun part h r hr => ?_, fun part h r hr => ?_, fun part h r hr => ?_,
    fun part h r hr => ?_, ?_⟩
  · obtain ⟨_, hpart, _, hne, _, hdk⟩ := zumiezParse_records part h r hr
    refine ⟨hne, fun hd => ?_⟩
    obtain ⟨n, o, s, hn, _, _⟩ := deckKeep_iff.mp (hdk (hpart ▸ hd))
    exact ⟨n, hn⟩
  · obtain ⟨⟨_, _, _, hne, _, _⟩, hq, _⟩ := swParse_records part h r hr
    exact ⟨hne, hq⟩
  · obtain ⟨⟨_, _, _, hne, _, _⟩, hq⟩ := ccsParse_records part h r hr
    exact ⟨hne, hq⟩
  · obtain ⟨⟨_, _, _, hne, _, _⟩, hq⟩ := tacticsParse_records part h r hr
    exact ⟨hne, hq⟩
  · refine ⟨some c6wHtml,
      ⟨"Independent Stage 11 Truck",
        "https://www.skatewarehouse.com/truck/indy.html", "44.99", none,
        "Check store", "Trucks", "SkateWarehouse"⟩, by decide, rfl⟩

/-- Witness for the amended C7 at a concrete SkateWarehouse record. -/
theorem price_new_presence_witness :
    ("44.99" : String) ≠ "" ∧ ∃ q, pyFloat "44.99" = some q :=
  price_new_presence.2.1 "Trucks" (some c6wHtml)
    ⟨"Independent Stage 11 Truck",
      "https://www.skatewarehouse.com/truck/indy.html", "44.99", none,
      "Check store", "Trucks", "SkateWarehouse"⟩ (by decide)


/-- One SkateWarehouse loop iteration has no effect on an anchor whose
text contains no price match: every skip path of the body returns the
state unchanged. -/
theorem stepSW_no_prices {part : String} {a : Anchor}
    (hp : findPrices a.text.toList = []) (st : List String × List Item) :
    stepSW part st a = st := by
  have hsw : swItem part st.1 a = (st.1, none) := by
    unfold swItem swEmit
    rw [hp]
    by_cases h1 : swPreSkip part a = true
    · simp [h1]
    · by_cases h2 : absolutize "https://www.skatewarehouse.com" a.href ∈ st.1
      · simp [h1, h2]
      · simp [h1, h2]
  simp [stepSW, hsw]

/-- C8: a failing candidate never derails the rest of a parse call.  For
the three variants whose per-item loop is wrapped in `try`/`except`
(Zumiez, CCS, Tactics), a candidate whose element accesses raise is
skipped and the result equals the parse of the remaining candidates in
order; for SkateWarehouse, whose loop body is built from total string
operations and `continue`-guards, an anchor with no extractable price is
likewise skipped with the remaining anchors still processed.  In every
case `parse` returns a list rather than raising. -/
theorem per_item_failure_isolated :
    (∀ part pre post,
      zumiezParseCands part (pre ++ ZCand.malformed :: post)
        = zumiezParseCands part (pre ++ post)) ∧
    (∀ part pre post,
      ccsParseCands part (pre ++ CCand.malformed :: post)
        = ccsParseCands part (pre ++ post)) ∧
    (∀ part pre post,
      tacticsParseCands part (pre ++ TCand.malformed :: post)
        = tacticsParseCands part (pre ++ post)) ∧
    (∀ part pre a post, findPrices a.text.toList = [] →
      swParseCands part (pre ++ a :: post) = swParseCands part (pre ++ post)) := by
  refine ⟨fun part pre post => ?_, fun part pre post => ?_,
    fun part pre post => ?_, fun part pre a post hp => ?_⟩
  · simp only [zumiezParseCands, List.foldl_append, List.foldl_cons, stepZ]
  · simp only [ccsParseCands, List.foldl_append, List.foldl_cons, stepCCS]
  · simp only [tacticsParseCands, List.foldl_append, List.foldl_cons, stepT]
  · simp only [swParseCands, List.foldl_append, List.foldl_cons,
      stepSW_no_prices hp]

/-- Witness for C8: a malformed Zumiez card and a price-less
SkateWarehouse anchor are each dropped without disturbing their
neighbours. -/
theorem per_item_failure_isolated_witness :
    zumiezParseCands "Wheels"
      ([ZCand.card ⟨some ⟨"/w1", none⟩, some "Bones W", some "$20.00", none⟩]
        ++ ZCand.malformed
          :: [ZCand.card ⟨some ⟨"/w2", none⟩, some "Spitfire W", some "$22.00", none⟩])
      = zumiezParseCands "Wheels"
          ([ZCand.card ⟨some ⟨"/w1", none⟩, some "Bones W", some "$20.00", none⟩]
            ++ [ZCand.card ⟨some ⟨"/w2", none⟩, some "Spitfire W", some "$22.00", none⟩]) ∧
    swParseCands "Trucks" ([] ++ (⟨"no price here", "/x"⟩ : Anchor) :: [])
      = swParseCands "Trucks" ([] ++ []) :=
  ⟨per_item_failure_isolated.1 "Wheels"
      [ZCand.card ⟨some ⟨"/w1", none⟩, some "Bones W", some "$20.00", none⟩]
      [ZCand.card ⟨some ⟨"/w2", none⟩, some "Spitfire W", some "$22.00", none⟩],
    per_item_failure_isolated.2.2.2 "Trucks" [] ⟨"no price here", "/x"⟩ []
      (by decide)⟩

/-- C9: a fetch that yields no markup degrades to an empty partition.
Every variant of `parse` returns `[]` on absent markup, and the
accumulation loop of `main` then stores the key with an empty item list
— the key is present in the current snapshot with zero items — while
the remaining configured sources are processed as usual. -/
theorem fetch_failure_empty_partition :
    (∀ cfg : ScraperCfg, parseDispatch cfg none = []) ∧
    (∀ (fetchResult : ScraperCfg → Option Html) (cfgs : List ScraperCfg),
      (cfgs.map keyOf).Nodup →
      ∀ cfg ∈ cfgs, fetchResult cfg = none →
        sfind (runAccumulate fetchResult cfgs) (keyOf cfg) = some []) := by
  constructor
  · exact parseDispatch_none
  · intro fetchResult cfgs hnd cfg hcfg hf
    rw [runAccumulate_find fetchResult cfgs hnd cfg hcfg, hf, parseDispatch_none]

/-- Witness for C9: with every fetch failing, the Zumiez Decks partition
key is present in the accumulated snapshot and holds zero items. -/
theorem fetch_failure_empty_partition_witness :
    parseDispatch ⟨.zumiez, "Zumiez", "Decks",
      "https://www.zumiez.com/skate/skateboard-decks.html?customFilters=promotion_flag:Sale"⟩
      none = [] ∧
    sfind (runAccumulate (fun _ => none) mainScrapers)
      (keyOf ⟨.zumiez, "Zumiez", "Decks",
        "https://www.zumiez.com/skate/skateboard-decks.html?customFilters=promotion_flag:Sale"⟩)
      = some [] :=
  ⟨fetch_failure_empty_partition.1 _,
    fetch_failure_empty_partition.2 (fun _ => none) mainScrapers (by decide)
      ⟨.zumiez, "Zumiez", "Decks",
        "https://www.zumiez.com/skate/skateboard-decks.html?customFilters=promotion_flag:Sale"⟩
      (by decide) rfl⟩

/-- C10: every record of every variant carries the fixed availability
placeholder `"Check store"`, the category its scraper was configured
with, and its scraper's fixed store name; consequently every record
accumulated by `main` under a partition key matches that key's source
and category — the key equals `record.store ++ "_" ++ record.part`. -/
theorem record_constant_fields :
    (∀ part h r, r ∈ zumiezParse part h →
      r.availability = "Check store" ∧ r.part = part ∧ r.store = "Zumiez") ∧
    (∀ part h r, r ∈ swParse part h →
      r.availability = "Check store" ∧ r.part = part ∧ r.store = "SkateWarehouse") ∧
    (∀ part h r, r ∈ ccsParse part h →
      r.availability = "Check store" ∧ r.part = part ∧ r.store = "CCS") ∧
    (∀ part h r, r ∈ tacticsParse part h →
      r.availability = "Check store" ∧ r.part = part ∧ r.store = "Tactics") ∧
    (∀ (fetchResult : ScraperCfg → Option Html) (k : String)
      (items : List Item) (r : Item),
      (k, items) ∈ runAccumulate fetchResult mainScrapers → r ∈ items →
      k = r.store ++ "_" ++ r.part) := by
  refine ⟨fun part h r hr => ?_, fun part h r hr => ?_, fun part h r hr => ?_,
    fun part h r hr => ?_, fun fetchResult k items r hk hr => ?_⟩
  · obtain ⟨h1, h2, h3, _⟩ := zumiezParse_records part h r hr
    exact ⟨h1, h2, h3⟩
  · obtain ⟨⟨h1, h2, h3, _⟩, _, _⟩ := swParse_records part h r hr
    exact ⟨h1, h2, h3⟩
  · obtain ⟨⟨h1, h2, h3, _⟩, _⟩ := ccsParse_records part h r hr
    exact ⟨h1, h2, h3⟩
  · obtain ⟨⟨h1, h2, h3, _⟩, _⟩ := tacticsParse_records part h r hr
    exact ⟨h1, h2, h3⟩
  · obtain ⟨cfg, hcfg, hkeq, hveq⟩ := runAccumulate_entries fetchResult mainScrapers hk
    rw [hveq] at hr
    obtain ⟨_, hpart, hstore⟩ := parseDispatch_records cfg (fetchResult cfg) r hr
    have hname := mainScrapers_names cfg hcfg
    rw [hkeq]
    unfold keyOf
    rw [hname, hstore, hpart]

/-- A Zumiez wheels page with one allow-listed card, used as every
config's fetch result in the C10 witness. -/
def c10Html : Html :=
  ⟨[ZCand.card ⟨some ⟨"/w9", none⟩, some "OJ Wheels 55mm", some "$31.99", none⟩],
    [], [], [], []⟩

/-- The record Zumiez emits for that page. -/
def c10rec : Item :=
  ⟨"OJ Wheels 55mm", "https://www.zumiez.com/w9", "31.99", none,
    "Check store", "Wheels", "Zumiez"⟩

/-- Witness for C10 at a concrete record and a concrete accumulated
snapshot. -/
theorem record_constant_fields_witness :
    (c10rec.availability = "Check store" ∧ c10rec.part = "Wheels" ∧
      c10rec.store = "Zumiez") ∧
    "Zumiez_Wheels" = c10rec.store ++ "_" ++ c10rec.part :=
  ⟨record_constant_fields.1 "Wheels" (some c10Html) c10rec (by decide),
    record_constant_fields.2.2.2.2 (fun _ => some c10Html) "Zumiez_Wheels"
      (zumiezParse "Wheels" (some c10Html)) c10rec (by decide) (by decide)⟩


end Scraper
